import Mathlib

/-!
# A shallow embedding of the Huffman file compressor

This file models the single-translation-unit C++ Huffman codec
(`huffman.cpp`) and proves properties of its `compress` / `decompress`
pipeline.  The embedding fixes the reference platform on which the
program is built and run: x86-64 Linux with g++, so

* `char` is a signed 8-bit type; `std::map<char, unsigned>` therefore
  orders its keys by the signed value of the byte (`0x80 .. 0xFF` sort
  before `0x00 .. 0x7F`);
* `unsigned` is 32 bits, so frequency counts wrap modulo `2 ^ 32`;
* `size_t` is 64 bits and integers are stored little-endian;
* a byte of the input or output file is modelled as a `Nat` below `256`.

Streams are modelled explicitly: an `IStr` carries the remaining bytes,
the fail bit of the C++ stream, and a count of attempted read
operations.  A `read` that fails leaves its destination variable with an
indeterminate value; such values are supplied by a `Junk` oracle so that
theorems can quantify over every possible behaviour of the compiled
program.  A null-pointer dereference during decoding (the program walks
`currentNode->left` without checking `currentNode`) is modelled by the
decoder returning `none`; a normal return is `some output`.

The `std::priority_queue` with comparator `l->frequency > r->frequency`
is modelled as a list kept sorted by ascending frequency whose head is
the top element; a pushed node is placed after existing nodes of equal
frequency.  The specification leaves the tie-break between
equal-frequency nodes open and only requires one consistent order, which
this model provides.  The `while (pq.size() > 1)` loop removes one node
per iteration, so running its body `pq.length` times with an explicit
counter (`buildLoopN`) performs exactly the iterations of the loop; the
counter is never exhausted, which `buildLoopN_length` below makes precise.
-/

namespace Huffman

/-- Wrap-around modulus of the 32-bit `unsigned` type. -/
def M32 : Nat := 2 ^ 32

/-- Wrap-around modulus of the 64-bit `size_t` type. -/
def M64 : Nat := 2 ^ 64

/-- The signed value of the byte `b` when it is stored in a `char` on the
reference platform: bytes `128 .. 255` become `-128 .. -1`.  This is the
sort key of `std::map<char, unsigned>`. -/
def sKey (b : Nat) : Int := if b < 128 then (b : Int) else (b : Int) - 256

/-- Insert-or-assign on the sorted association list that models
`std::map<char, unsigned>`: keys are kept in ascending `sKey` order and an
existing binding of the same key is overwritten. -/
def mapAssign (b v : Nat) : List (Nat × Nat) → List (Nat × Nat)
  | [] => [(b, v)]
  | (k, w) :: t =>
    if sKey b < sKey k then (b, v) :: (k, w) :: t
    else if sKey k < sKey b then (k, w) :: mapAssign b v t
    else (b, v) :: t

/-- Lookup in the association list modelling `std::map`. -/
def lookupFM (b : Nat) (fl : List (Nat × Nat)) : Option Nat :=
  (fl.find? (fun p => p.1 == b)).map (fun p => p.2)

/-- One step of `frequencyMap[character]++`: `operator[]` value-initialises a
missing entry to `0`, and the increment wraps at `2 ^ 32`. -/
def mapIncr (fl : List (Nat × Nat)) (b : Nat) : List (Nat × Nat) :=
  mapAssign b (((lookupFM b fl).getD 0 + 1) % M32) fl

/-- `HuffmanCoding::buildFrequencyTable`: count every byte of the input. -/
def buildFrequencyTable (S : List Nat) : List (Nat × Nat) :=
  S.foldl mapIncr []

/-- Total number of symbols declared by a frequency table, as computed at the
start of `HuffmanCoding::decodeData` (`totalChars`). -/
def totalChars (fl : List (Nat × Nat)) : Nat :=
  (fl.map (fun p => p.2)).sum

/-- A `std::shared_ptr<HuffmanNode>`: either the null pointer or a node with
a data byte, a frequency and two child pointers. -/
inductive HTree where
  | null : HTree
  | mk (data : Nat) (freq : Nat) (left : HTree) (right : HTree) : HTree
deriving DecidableEq, Repr

/-- Frequency of a node (`0` for the null pointer, never used on it). -/
def HTree.freq : HTree → Nat
  | .null => 0
  | .mk _ f _ _ => f

/-- `priority_queue::push` for the model: insert into the
ascending-frequency list, after existing nodes of equal frequency. -/
def pqPush (t : HTree) : List HTree → List HTree
  | [] => [t]
  | u :: us => if t.freq < u.freq then t :: u :: us else u :: pqPush t us

/-- The body of `while (pq.size() > 1)` run at most `n` times: pop the two
minimum-frequency nodes, merge them under a fresh internal node carrying
the placeholder byte `36` (the character `$`) and the wrapped sum of the
frequencies, and push the result.  With `n ≥ pq.length - 1` the counter
never reaches `0` before the loop condition turns false. -/
def buildLoopN : Nat → List HTree → List HTree
  | _, [] => []
  | _, [a] => [a]
  | 0, l => l
  | n + 1, a :: b :: rest =>
    buildLoopN n (pqPush (.mk 36 ((a.freq + b.freq) % M32) a b) rest)

/-- `HuffmanCoding::buildHuffmanTree`: leaves for all map entries are pushed
in map order; an empty map yields the null root; a single leaf receives a
synthetic parent (byte `36`, same frequency, leaf on the left, null right
child); then the merge loop runs and the remaining node is the root. -/
def buildHuffmanTree (fl : List (Nat × Nat)) : HTree :=
  let pq0 := fl.foldl (fun pq p => pqPush (.mk p.1 p.2 .null .null) pq) []
  match pq0 with
  | [] => .null
  | pq =>
    let pq1 := match pq with
      | [single] => pqPush (.mk 36 single.freq single .null) []
      | l => l
    match buildLoopN pq1.length pq1 with
    | root :: _ => root
    | [] => .null

/-- `HuffmanCoding::generateCodes`: a null pointer contributes nothing; a
node with two null children is a leaf and records its code; recursion
appends `false` (a 0 bit) to the left and `true` (a 1 bit) to the right.
The recorded entries are listed in traversal order; since every leaf
carries a distinct byte this list is the content of the
`std::map<char, std::string>` the program fills in. -/
def generateCodes : HTree → List Bool → List (Nat × List Bool)
  | .null, _ => []
  | .mk d _ l r, code =>
    (match l, r with
      | .null, .null => [(d, code)]
      | _, _ => []) ++
    generateCodes l (code ++ [false]) ++ generateCodes r (code ++ [true])

/-- `huffmanCodes[character]` on the encode path: `std::map::operator[]`
returns the stored code, or a default-constructed empty string when the
byte has no entry. -/
def codeOf (tbl : List (Nat × List Bool)) (b : Nat) : List Bool :=
  ((tbl.find? (fun p => p.1 == b)).map (fun p => p.2)).getD []

/-- The bits of one stored byte in the order the decoder visits them:
`for (int i = 7; i >= 0; --i) (byte >> i) & 1`. -/
def byteToBits (v : Nat) : List Bool :=
  [v.testBit 7, v.testBit 6, v.testBit 5, v.testBit 4,
   v.testBit 3, v.testBit 2, v.testBit 1, v.testBit 0]

/-- All bits of a byte sequence, most significant bit of each byte first. -/
def bytesToBits (bytes : List Nat) : List Bool :=
  (bytes.map byteToBits).flatten

/-- The value accumulated by `buffer = (buffer << 1) | bit` starting from
`0`, i.e. the bits read most-significant first. -/
def bitsToByte (bs : List Bool) : Nat :=
  bs.foldl (fun a b => 2 * a + (if b then 1 else 0)) 0

/-- One step of the bit packer in `writeCompressedData`: shift the bit into
the 8-bit accumulator (an `unsigned char`, hence the reduction modulo
`256`) and emit the accumulator once it holds 8 bits. -/
def pushBit (st : Nat × Nat × List Nat) (bit : Bool) : Nat × Nat × List Nat :=
  match st with
  | (buf, cnt, out) =>
    let buf2 := (2 * buf + (if bit then 1 else 0)) % 256
    if cnt + 1 = 8 then (0, 0, out ++ [buf2]) else (buf2, cnt + 1, out)

/-- `HuffmanCoding::writeCompressedData`: look up the code of every input
byte in order, feed all bits through the 8-bit accumulator, and flush a
partially filled accumulator left-shifted so the final byte is padded
with trailing zero bits. -/
def writeCompressedData (tbl : List (Nat × List Bool)) (S : List Nat) : List Nat :=
  match S.foldl (fun st c => (codeOf tbl c).foldl pushBit st) (0, 0, []) with
  | (buf, cnt, out) =>
    if cnt = 0 then out else out ++ [(buf * 2 ^ (8 - cnt)) % 256]

/-- Little-endian bytes of the low `8 * k` bits of `n`, as written by
`outputFile.write(reinterpret_cast<const char*>(&n), k)` on the
reference platform. -/
def natToLE : Nat → Nat → List Nat
  | 0, _ => []
  | k + 1, n => n % 256 :: natToLE k (n / 256)

/-- The value stored in a `k`-byte little-endian buffer. -/
def leToNat : List Nat → Nat
  | [] => 0
  | b :: bs => b + 256 * leToNat bs

/-- `HuffmanCoding::writeHeader`: the 8-byte map size followed by, for each
map entry in map order, the raw symbol byte and its 4-byte frequency. -/
def writeHeader (fl : List (Nat × Nat)) : List Nat :=
  natToLE 8 fl.length ++ (fl.map (fun p => p.1 :: natToLE 4 p.2)).flatten

/-- `HuffmanCoding::compress` after the two streams opened successfully: an
empty frequency table short-circuits to an empty output file; otherwise
the header is written and the re-read input is encoded. -/
def compress (S : List Nat) : List Nat :=
  let fl := buildFrequencyTable S
  if fl.isEmpty then []
  else
    writeHeader fl ++
      writeCompressedData (generateCodes (buildHuffmanTree fl) []) S

/-- The state of the compressed input stream during decompression: the
bytes not yet consumed, the fail bit, and how many read operations
(`read` or `get` calls) have been attempted so far. -/
structure IStr where
  data : List Nat
  fail : Bool
  attempts : Nat
deriving DecidableEq, Repr

/-- Values of the variables that a failed `read` leaves indeterminate: the
`size_t` map size and, per loop iteration, the `char` and `unsigned` of a
pair.  Theorems about failure paths quantify over this oracle. -/
structure Junk where
  size : Nat
  pair : Nat → Nat × Nat

/-- A concrete junk oracle, used to state closed counterexamples. -/
def junk0 : Junk := ⟨0, fun _ => (0, 0)⟩

/-- `istream::read(buf, n)`: on an already failed stream nothing happens;
otherwise either `n` bytes are consumed and returned, or the remaining
bytes are consumed, the fail bit is set and the destination buffer is
left indeterminate (`none`).  Every call counts as one attempt. -/
def readB (n : Nat) (s : IStr) : Option (List Nat) × IStr :=
  if s.fail then (none, ⟨s.data, true, s.attempts + 1⟩)
  else if n ≤ s.data.length then
    (some (s.data.take n), ⟨s.data.drop n, false, s.attempts + 1⟩)
  else (none, ⟨[], true, s.attempts + 1⟩)

/-- The pair-reading loop of `readHeader`, iterating the declared count
down to `0`: read one symbol byte and one 4-byte frequency, substituting
oracle values for the indeterminate content of failed reads (an
uninitialised `char` holds some 8-bit value, an uninitialised `unsigned`
some 32-bit value), and insert into the map. -/
def readHeaderLoop (junk : Junk) : Nat → List (Nat × Nat) → IStr → List (Nat × Nat) × IStr
  | 0, fl, s => (fl, s)
  | n + 1, fl, s =>
    match readB 1 s with
    | (c?, s1) =>
      match readB 4 s1 with
      | (f?, s2) =>
        let c := match c? with
          | some [c] => c
          | _ => (junk.pair n).1 % 256
        let f := match f? with
          | some fb => leToNat fb
          | none => (junk.pair n).2 % M32
        readHeaderLoop junk n (mapAssign c f fl) s2

/-- `HuffmanCoding::readHeader`: clear the map, read the 8-byte declared
count (indeterminate if the read fails), then run the pair loop. -/
def readHeader (junk : Junk) (s : IStr) : List (Nat × Nat) × IStr :=
  match readB 8 s with
  | (szb, s1) =>
    let n := match szb with
      | some bs => leToNat bs
      | none => junk.size % M64
    readHeaderLoop junk n [] s1

/-- The inner `for (int i = 7; i >= 0; --i)` loop of `decodeData` over the
bits of one byte: break once the expected count is reached; otherwise
dereference the cursor (`none` models the null-pointer dereference the
program performs when the cursor is the null pointer), step to the left
child on a 0 bit and the right child on a 1 bit, and on arriving at a
leaf emit its byte and reset the cursor to the root. -/
def procBits (rootO : HTree) : List Bool → HTree → List Nat → Nat →
    Option (HTree × List Nat × Nat)
  | [], cur, out, rem => some (cur, out, rem)
  | b :: bs, cur, out, rem =>
    if rem = 0 then some (cur, out, rem)
    else match cur with
      | .null => none
      | .mk _ _ l r =>
        match (if b then r else l) with
        | .mk d _f .null .null => procBits rootO bs rootO (out ++ [d]) (rem - 1)
        | nxt => procBits rootO bs nxt out rem

/-- The outer `while (inputFile.get(byte) && decodedCount < totalChars)`
loop of `decodeData`: each iteration attempts to read one byte; a failed
read ends the loop normally, a successful read with the count already
reached also ends it, and otherwise the bits of the byte are processed.  The
first component is `none` exactly when a null pointer was dereferenced;
otherwise it is the list of decoded bytes written to the output. -/
def decodeDataLoop (rootO : HTree) :
    HTree → List Nat → Nat → List Nat → Bool → Nat → Option (List Nat) × IStr
  | _, out, _, data, true, att => (some out, ⟨data, true, att + 1⟩)
  | _, out, _, [], false, att => (some out, ⟨[], true, att + 1⟩)
  | cur, out, rem, v :: rest, false, att =>
    if rem = 0 then (some out, ⟨rest, false, att + 1⟩)
    else match procBits rootO (byteToBits v) cur out rem with
      | none => (none, ⟨rest, false, att + 1⟩)
      | some (c, o, r) => decodeDataLoop rootO c o r rest false (att + 1)

/-- `HuffmanCoding::decodeData`: sum the frequencies; a total of `0` returns
at once without reading, otherwise run the decoding loop from the root. -/
def decodeData (rootO : HTree) (fl : List (Nat × Nat)) (s : IStr) :
    Option (List Nat) × IStr :=
  if totalChars fl = 0 then (some [], s)
  else decodeDataLoop rootO rootO [] (totalChars fl) s.data s.fail s.attempts

/-- `HuffmanCoding::decompress` after the two streams opened successfully:
read the header (unconditionally — there is no empty-file check), rebuild
the tree from the recovered table, and decode. -/
def decompress (junk : Junk) (input : List Nat) : Option (List Nat) × IStr :=
  match readHeader junk ⟨input, false, 0⟩ with
  | (fl, s1) => decodeData (buildHuffmanTree fl) fl s1

/-- Reference bit packer used in proofs: chunk the bit list into bytes of
eight, padding the final chunk with zero bits. -/
def packBits : List Bool → List Nat
  | b0 :: b1 :: b2 :: b3 :: b4 :: b5 :: b6 :: b7 :: rest =>
    bitsToByte [b0, b1, b2, b3, b4, b5, b6, b7] :: packBits rest
  | [] => []
  | bs => [bitsToByte (bs ++ List.replicate (8 - bs.length) false)]

/-- The final flush of the bit packer, as performed at the end of
`writeCompressedData`. -/
def flushPack (st : Nat × Nat × List Nat) : List Nat :=
  match st with
  | (buf, cnt, o) => if cnt = 0 then o else o ++ [(buf * 2 ^ (8 - cnt)) % 256]

/-- Reference decoder used in proofs: `decodeDataLoop` flattened to the
bit level.  `none` again models a null-pointer dereference. -/
def decodeBitsAux (rootO : HTree) : HTree → List Bool → List Nat → Nat →
    Option (List Nat)
  | _, [], out, _ => some out
  | cur, b :: bs, out, rem =>
    if rem = 0 then some out
    else match cur with
      | .null => none
      | .mk _ _ l r =>
        match (if b then r else l) with
        | .mk d _ .null .null => decodeBitsAux rootO rootO bs (out ++ [d]) (rem - 1)
        | nxt => decodeBitsAux rootO nxt bs out rem

/-- The bytes of the leaves of a tree, in left-to-right order. -/
def leafData : HTree → List Nat
  | .null => []
  | .mk d _ .null .null => [d]
  | .mk _ _ l r => leafData l ++ leafData r

/-- `PathTo t c s`: following the bits of `c` from `t` steps only into
non-null children, every intermediate node has a child (so the decoder
does not emit there), and the walk ends at a leaf carrying `s`.  The
codewords generated by `generateCodes` are exactly such paths. -/
inductive PathTo : HTree → List Bool → Nat → Prop
  | leaf (d f : Nat) : PathTo (.mk d f .null .null) [] d
  | stepL (d f : Nat) (l r : HTree) (c : List Bool) (s : Nat) :
      PathTo l c s → PathTo (.mk d f l r) (false :: c) s
  | stepR (d f : Nat) (l r : HTree) (c : List Bool) (s : Nat) :
      PathTo r c s → PathTo (.mk d f l r) (true :: c) s

/-- One bit-string is a prefix of another. -/
def isPre (a b : List Bool) : Prop := ∃ t, a ++ t = b

/-- The representation invariant of a `std::map<char, unsigned>` value:
keys strictly ascending in signed-char order, every key an 8-bit byte,
every frequency a 32-bit value. -/
def WFFreq (fl : List (Nat × Nat)) : Prop :=
  fl.Pairwise (fun p q => sKey p.1 < sKey q.1) ∧
    ∀ p ∈ fl, p.1 < 256 ∧ p.2 < M32

instance : DecidablePred WFFreq := fun fl => by
  unfold WFFreq
  infer_instance

/-! ## Little-endian integer serialisation -/

theorem natToLE_length (k n : Nat) : (natToLE k n).length = k := by
  induction k generalizing n with
  | zero => rfl
  | succ k ih => simp [natToLE, ih]

theorem leToNat_natToLE (k n : Nat) : leToNat (natToLE k n) = n % 2 ^ (8 * k) := by
  induction k generalizing n with
  | zero => simp [natToLE, leToNat, Nat.mod_one]
  | succ k ih =>
    have hpow : (2 : Nat) ^ (8 * (k + 1)) = 256 * 2 ^ (8 * k) := by
      rw [Nat.mul_succ, pow_add]
      ring
    rw [natToLE, leToNat, ih, hpow, Nat.mod_mul]

theorem natToLE_mem_lt (k n : Nat) : ∀ x ∈ natToLE k n, x < 256 := by
  induction k generalizing n with
  | zero => simp [natToLE]
  | succ k ih =>
    intro x hx
    rcases hx with hx | hx
    · omega
    · rename_i h
      exact ih _ _ h

/-! ## Stream reads -/

theorem readB_exact (n : Nat) (xs rest : List Nat) (a : Nat) (h : xs.length = n) :
    readB n ⟨xs ++ rest, false, a⟩ = (some xs, ⟨rest, false, a + 1⟩) := by
  subst h
  simp [readB, List.take_left, List.drop_left]

theorem readB_failed (n : Nat) (d : List Nat) (a : Nat) :
    readB n ⟨d, true, a⟩ = (none, ⟨d, true, a + 1⟩) := by
  simp [readB]

theorem readB_short (n : Nat) (d : List Nat) (a : Nat) (h : d.length < n) :
    readB n ⟨d, false, a⟩ = (none, ⟨[], true, a + 1⟩) := by
  simp [readB]
  omega

/-! ## The frequency map -/

theorem sKey_inj {a b : Nat} (ha : a < 256) (hb : b < 256) (h : sKey a = sKey b) :
    a = b := by
  unfold sKey at h
  split at h <;> split at h <;> omega

theorem lookupFM_nil (c : Nat) : lookupFM c [] = none := rfl

theorem lookupFM_cons (c k w : Nat) (t : List (Nat × Nat)) :
    lookupFM c ((k, w) :: t) = if k = c then some w else lookupFM c t := by
  unfold lookupFM
  by_cases h : k = c
  · rw [List.find?_cons_of_pos _ (by simp [h]), if_pos h]
    rfl
  · rw [List.find?_cons_of_neg _ (by simp [h]), if_neg h]

theorem mem_mapAssign {b v : Nat} {fl : List (Nat × Nat)} {p : Nat × Nat}
    (h : p ∈ mapAssign b v fl) : p = (b, v) ∨ p ∈ fl := by
  induction fl with
  | nil => simpa [mapAssign] using h
  | cons q t ih =>
    obtain ⟨k, w⟩ := q
    simp only [mapAssign] at h
    split_ifs at h with h1 h2
    · rcases List.mem_cons.mp h with h | h
      · exact Or.inl h
      · exact Or.inr h
    · rcases List.mem_cons.mp h with h | h
      · exact Or.inr (h ▸ List.mem_cons_self _ _)
      · rcases ih h with h | h
        · exact Or.inl h
        · exact Or.inr (List.mem_cons_of_mem _ h)
    · rcases List.mem_cons.mp h with h | h
      · exact Or.inl h
      · exact Or.inr (List.mem_cons_of_mem _ h)

theorem pairwise_mapAssign {b v : Nat} {fl : List (Nat × Nat)}
    (h : fl.Pairwise (fun p q => sKey p.1 < sKey q.1)) :
    (mapAssign b v fl).Pairwise (fun p q => sKey p.1 < sKey q.1) := by
  induction fl with
  | nil => simp [mapAssign]
  | cons q t ih =>
    obtain ⟨k, w⟩ := q
    rcases List.pairwise_cons.mp h with ⟨hq, ht⟩
    simp only [mapAssign]
    split_ifs with h1 h2
    · refine List.pairwise_cons.mpr ⟨?_, h⟩
      intro p hp
      rcases List.mem_cons.mp hp with rfl | hp
      · exact h1
      · exact lt_trans h1 (hq p hp)
    · refine List.pairwise_cons.mpr ⟨?_, ih ht⟩
      intro p hp
      rcases mem_mapAssign hp with rfl | hp
      · exact h2
      · exact hq p hp
    · refine List.pairwise_cons.mpr ⟨?_, ht⟩
      intro p hp
      have h3 : sKey k < sKey p.1 := hq p hp
      show sKey b < sKey p.1
      omega

theorem lookupFM_mapAssign {b v : Nat} {fl : List (Nat × Nat)} (c : Nat)
    (hb : b < 256) (hkeys : ∀ p ∈ fl, p.1 < 256) :
    lookupFM c (mapAssign b v fl) = if c = b then some v else lookupFM c fl := by
  induction fl with
  | nil =>
    simp only [mapAssign]
    rw [lookupFM_cons, lookupFM_nil]
    by_cases h : c = b
    · simp [h]
    · simp [h, Ne.symm h]
  | cons q t ih =>
    obtain ⟨k, w⟩ := q
    have hk : k < 256 := hkeys (k, w) (List.mem_cons_self _ _)
    have ht : ∀ p ∈ t, p.1 < 256 := fun p hp => hkeys p (List.mem_cons_of_mem _ hp)
    simp only [mapAssign]
    by_cases h1 : sKey b < sKey k
    · rw [if_pos h1, lookupFM_cons]
      by_cases h : c = b
      · simp [h]
      · simp [h, Ne.symm h]
    · rw [if_neg h1]
      by_cases h2 : sKey k < sKey b
      · rw [if_pos h2, lookupFM_cons, ih ht, lookupFM_cons]
        have hkb : k ≠ b := fun hh => by rw [hh] at h2; exact lt_irrefl _ h2
        by_cases hkc : k = c
        · subst hkc
          simp [hkb]
        · by_cases hcb : c = b
          · simp [hkb, hcb]
          · simp [hkc, hcb]
      · rw [if_neg h2]
        have hbk : b = k := sKey_inj hb hk (by omega)
        subst hbk
        rw [lookupFM_cons, lookupFM_cons]
        by_cases h : c = b
        · simp [h]
        · simp [h, Ne.symm h]

theorem wffreq_mapAssign {b v : Nat} {fl : List (Nat × Nat)}
    (h : WFFreq fl) (hb : b < 256) (hv : v < M32) : WFFreq (mapAssign b v fl) := by
  refine ⟨pairwise_mapAssign h.1, ?_⟩
  intro p hp
  rcases mem_mapAssign hp with hp | hp
  · simp [hp, hb, hv]
  · exact h.2 p hp

theorem wffreq_nil : WFFreq [] := ⟨List.Pairwise.nil, by simp⟩

theorem M32_pos : 0 < M32 := Nat.two_pow_pos 32

theorem wffreq_foldl_mapIncr {S : List Nat} {acc : List (Nat × Nat)}
    (hS : ∀ b ∈ S, b < 256) (hacc : WFFreq acc) :
    WFFreq (S.foldl mapIncr acc) := by
  induction S generalizing acc with
  | nil => simpa using hacc
  | cons b S ih =>
    have hb : b < 256 := hS b (List.mem_cons_self _ _)
    have hS2 : ∀ x ∈ S, x < 256 := fun x hx => hS x (List.mem_cons_of_mem _ hx)
    simp only [List.foldl_cons]
    exact ih hS2 (wffreq_mapAssign hacc hb (Nat.mod_lt _ M32_pos))

theorem wffreq_buildFrequencyTable {S : List Nat} (hS : ∀ b ∈ S, b < 256) :
    WFFreq (buildFrequencyTable S) :=
  wffreq_foldl_mapIncr hS wffreq_nil

theorem lookupFM_mem {c v : Nat} {fl : List (Nat × Nat)}
    (h : lookupFM c fl = some v) : (c, v) ∈ fl := by
  induction fl with
  | nil => simp [lookupFM_nil] at h
  | cons q t ih =>
    obtain ⟨k, w⟩ := q
    rw [lookupFM_cons] at h
    split_ifs at h with hk
    · obtain rfl := hk
      obtain rfl : w = v := by simpa using h
      exact List.mem_cons_self _ _
    · exact List.mem_cons_of_mem _ (ih h)

theorem lookupFM_foldl {S : List Nat} {acc : List (Nat × Nat)} (c : Nat)
    (hS : ∀ b ∈ S, b < 256) (hacc : WFFreq acc) :
    lookupFM c (S.foldl mapIncr acc) =
      if S.count c = 0 ∧ lookupFM c acc = none then none
      else some (((lookupFM c acc).getD 0 + S.count c) % M32) := by
  induction S generalizing acc with
  | nil =>
    rcases hl : lookupFM c acc with _ | v
    · simp [hl]
    · have hv : v < M32 := (hacc.2 _ (lookupFM_mem hl)).2
      simp [hl, Nat.mod_eq_of_lt hv]
  | cons b S ih =>
    have hb : b < 256 := hS b (List.mem_cons_self _ _)
    have hS2 : ∀ x ∈ S, x < 256 := fun x hx => hS x (List.mem_cons_of_mem _ hx)
    have hacc2 : WFFreq (mapIncr acc b) :=
      wffreq_mapAssign hacc hb (Nat.mod_lt _ M32_pos)
    have hlk : lookupFM c (mapIncr acc b) =
        if c = b then some (((lookupFM b acc).getD 0 + 1) % M32)
        else lookupFM c acc :=
      lookupFM_mapAssign c hb (fun p hp => (hacc.2 p hp).1)
    simp only [List.foldl_cons]
    rw [ih hS2 hacc2, hlk]
    rcases eq_or_ne c b with rfl | hcb
    · rw [if_pos rfl, List.count_cons_self]
      rw [if_neg (by simp), if_neg (by simp)]
      simp only [Option.getD_some]
      rw [Nat.mod_add_mod]
      congr 2
      omega
    · rw [if_neg hcb, List.count_cons_of_ne hcb]

/-! ## Derived facts about `buildFrequencyTable` -/

theorem lookupFM_buildFrequencyTable {S : List Nat} (c : Nat)
    (hS : ∀ b ∈ S, b < 256) :
    lookupFM c (buildFrequencyTable S) =
      if S.count c = 0 then none else some (S.count c % M32) := by
  have h := @lookupFM_foldl S [] c hS wffreq_nil
  simpa [buildFrequencyTable, lookupFM_nil] using h

theorem mem_foldl_mapIncr {S : List Nat} {acc : List (Nat × Nat)} {p : Nat × Nat}
    (h : p ∈ S.foldl mapIncr acc) : p ∈ acc ∨ p.1 ∈ S := by
  induction S generalizing acc with
  | nil => exact Or.inl h
  | cons b S ih =>
    rcases ih h with h2 | h2
    · rcases mem_mapAssign h2 with h3 | h3
      · exact Or.inr (by simp [h3])
      · exact Or.inl h3
    · exact Or.inr (List.mem_cons_of_mem _ h2)

theorem wffreq_tail {q : Nat × Nat} {t : List (Nat × Nat)} (h : WFFreq (q :: t)) :
    WFFreq t :=
  ⟨(List.pairwise_cons.mp h.1).2, fun p hp => h.2 p (List.mem_cons_of_mem _ hp)⟩

theorem keys_nodup_of_wffreq {fl : List (Nat × Nat)} (h : WFFreq fl) :
    (fl.map Prod.fst).Nodup := by
  rw [List.Nodup, List.pairwise_map]
  refine h.1.imp ?_
  intro p q hlt heq
  rw [show p.1 = q.1 from heq] at hlt
  exact lt_irrefl _ hlt

theorem lookupFM_of_mem {fl : List (Nat × Nat)} (h : WFFreq fl) {c v : Nat}
    (hm : (c, v) ∈ fl) : lookupFM c fl = some v := by
  induction fl with
  | nil => cases hm
  | cons q t ih =>
    obtain ⟨k, w⟩ := q
    rw [lookupFM_cons]
    rcases List.mem_cons.mp hm with h2 | h2
    · obtain ⟨rfl, rfl⟩ := Prod.mk.injEq .. ▸ h2
      rw [if_pos rfl]
    · have hkc : k ≠ c := by
        intro hkc
        have := (List.pairwise_cons.mp h.1).1 (c, v) h2
        rw [hkc] at this
        exact lt_irrefl _ this
      rw [if_neg hkc]
      exact ih (wffreq_tail h) h2

theorem mem_keys_buildFrequencyTable {S : List Nat} (hS : ∀ b ∈ S, b < 256)
    (c : Nat) : c ∈ (buildFrequencyTable S).map Prod.fst ↔ c ∈ S := by
  constructor
  · intro h
    obtain ⟨p, hp, hpc⟩ := List.mem_map.mp h
    rcases mem_foldl_mapIncr hp with h2 | h2
    · cases h2
    · exact hpc ▸ h2
  · intro h
    have hcount : S.count c ≠ 0 := by
      have := List.count_pos_iff.mpr h
      omega
    have hl := lookupFM_buildFrequencyTable c hS
    rw [if_neg hcount] at hl
    exact List.mem_map_of_mem Prod.fst (lookupFM_mem hl)

theorem snd_eq_count {S : List Nat} (hS : ∀ b ∈ S, b < 256)
    (hc : ∀ b ∈ S, S.count b < M32) {p : Nat × Nat}
    (hp : p ∈ buildFrequencyTable S) : p.2 = S.count p.1 := by
  have hkey : p.1 ∈ S := by
    rcases mem_foldl_mapIncr hp with h | h
    · cases h
    · exact h
  have wf := wffreq_buildFrequencyTable hS
  have hl : lookupFM p.1 (buildFrequencyTable S) = some p.2 :=
    lookupFM_of_mem wf (by obtain ⟨x, y⟩ := p; exact hp)
  rw [lookupFM_buildFrequencyTable p.1 hS,
    if_neg (by have := List.count_pos_iff.mpr hkey; omega)] at hl
  have := Option.some.injEq .. ▸ hl
  rw [Nat.mod_eq_of_lt (hc _ hkey)] at this
  omega

theorem keys_bft_perm_dedup {S : List Nat} (hS : ∀ b ∈ S, b < 256) :
    ((buildFrequencyTable S).map Prod.fst).Perm S.dedup := by
  rw [List.perm_ext_iff_of_nodup
    (keys_nodup_of_wffreq (wffreq_buildFrequencyTable hS)) S.nodup_dedup]
  intro a
  rw [mem_keys_buildFrequencyTable hS a, List.mem_dedup]

theorem totalChars_buildFrequencyTable {S : List Nat} (hS : ∀ b ∈ S, b < 256)
    (hc : ∀ b ∈ S, S.count b < M32) :
    totalChars (buildFrequencyTable S) = S.length := by
  unfold totalChars
  have hmap : (buildFrequencyTable S).map (fun p => p.2) =
      ((buildFrequencyTable S).map Prod.fst).map (fun c => S.count c) := by
    rw [List.map_map]
    exact List.map_congr_left (fun p hp => snd_eq_count hS hc hp)
  rw [hmap, ((keys_bft_perm_dedup hS).map (fun c => S.count c)).sum_eq]
  exact List.sum_map_count_dedup_eq_length S

theorem length_le_256_of_wffreq {fl : List (Nat × Nat)} (h : WFFreq fl) :
    fl.length ≤ 256 := by
  have hnd := keys_nodup_of_wffreq h
  have hcard := List.toFinset_card_of_nodup hnd
  have hsub : (fl.map Prod.fst).toFinset ⊆ Finset.range 256 := by
    intro a ha
    rw [List.mem_toFinset] at ha
    obtain ⟨p, hp, hpa⟩ := List.mem_map.mp ha
    exact Finset.mem_range.mpr (hpa ▸ (h.2 p hp).1)
  have h2 := Finset.card_le_card hsub
  rw [hcard, Finset.card_range, List.length_map] at h2
  exact h2

theorem buildFrequencyTable_ne_nil {S : List Nat} (hS : ∀ b ∈ S, b < 256)
    (hne : S ≠ []) : buildFrequencyTable S ≠ [] := by
  obtain ⟨b, hb⟩ : ∃ b, b ∈ S := by
    cases S with
    | nil => exact absurd rfl hne
    | cons x t => exact ⟨x, List.mem_cons_self _ _⟩
  intro h
  have h2 := (mem_keys_buildFrequencyTable hS b).mpr hb
  rw [h] at h2
  cases h2

/-! ## Header round-trip -/

theorem mapAssign_append {k v : Nat} {acc : List (Nat × Nat)}
    (h : ∀ p ∈ acc, sKey p.1 < sKey k) :
    mapAssign k v acc = acc ++ [(k, v)] := by
  induction acc with
  | nil => rfl
  | cons q t ih =>
    obtain ⟨a, b⟩ := q
    have ha : sKey a < sKey k := h (a, b) (List.mem_cons_self _ _)
    simp only [mapAssign]
    rw [if_neg (by omega), if_pos ha, ih (fun p hp => h p (List.mem_cons_of_mem _ hp))]
    rfl

theorem readHeaderLoop_exact (junk : Junk) (fl acc : List (Nat × Nat))
    (rest : List Nat) (a : Nat)
    (hsort : ∀ q ∈ fl, ∀ p ∈ acc, sKey p.1 < sKey q.1)
    (hfl : fl.Pairwise (fun p q => sKey p.1 < sKey q.1))
    (hvals : ∀ p ∈ fl, p.2 < M32) :
    readHeaderLoop junk fl.length acc
        ⟨(fl.map fun p => p.1 :: natToLE 4 p.2).flatten ++ rest, false, a⟩ =
      (acc ++ fl, ⟨rest, false, a + 2 * fl.length⟩) := by
  induction fl generalizing acc a with
  | nil => simp [readHeaderLoop]
  | cons p fl ih =>
    obtain ⟨k, v⟩ := p
    have hdata : ((((k, v) :: fl).map fun p => p.1 :: natToLE 4 p.2).flatten ++ rest) =
        [k] ++ (natToLE 4 v ++ ((fl.map fun p => p.1 :: natToLE 4 p.2).flatten ++ rest)) := by
      simp [List.append_assoc]
    rw [List.length_cons]
    show readHeaderLoop junk (fl.length + 1) acc _ = _
    unfold readHeaderLoop
    rw [hdata, readB_exact 1 [k] _ a rfl]
    dsimp only
    rw [readB_exact 4 (natToLE 4 v) _ (a + 1) (natToLE_length 4 v)]
    dsimp only
    have hv : leToNat (natToLE 4 v) = v := by
      rw [leToNat_natToLE]
      exact Nat.mod_eq_of_lt (hvals (k, v) (List.mem_cons_self _ _))
    rw [hv]
    have hins : mapAssign k v acc = acc ++ [(k, v)] :=
      mapAssign_append (hsort (k, v) (List.mem_cons_self _ _))
    rw [hins]
    have hsort2 : ∀ q ∈ fl, ∀ p ∈ acc ++ [(k, v)], sKey p.1 < sKey q.1 := by
      intro q hq p hp
      rcases List.mem_append.mp hp with hp | hp
      · exact hsort q (List.mem_cons_of_mem _ hq) p hp
      · obtain rfl : p = (k, v) := by simpa using hp
        exact (List.pairwise_cons.mp hfl).1 q hq
    have hrec := ih (acc ++ [(k, v)]) (a + 1 + 1) hsort2 (List.pairwise_cons.mp hfl).2
      (fun p hp => hvals p (List.mem_cons_of_mem _ hp))
    have hl : (acc ++ [(k, v)]) ++ fl = acc ++ (k, v) :: fl := by simp
    have ha : a + 1 + 1 + 2 * fl.length = a + 2 * (fl.length + 1) := by omega
    rw [hrec, hl, ha]

theorem readHeader_writeHeader (junk : Junk) {fl : List (Nat × Nat)}
    (hwf : WFFreq fl) (rest : List Nat) :
    readHeader junk ⟨writeHeader fl ++ rest, false, 0⟩ =
      (fl, ⟨rest, false, 1 + 2 * fl.length⟩) := by
  unfold readHeader writeHeader
  rw [List.append_assoc, readB_exact 8 _ _ 0 (natToLE_length 8 fl.length)]
  simp only [leToNat_natToLE]
  have hlen : fl.length % 2 ^ (8 * 8) = fl.length := by
    have := length_le_256_of_wffreq hwf
    apply Nat.mod_eq_of_lt
    calc fl.length ≤ 256 := this
    _ < 2 ^ (8 * 8) := by norm_num
  rw [hlen]
  have := readHeaderLoop_exact junk fl [] rest 1 (by simp) hwf.1
    (fun p hp => (hwf.2 p hp).2)
  rw [this]
  simp [Nat.add_comm]

/-! ## The priority queue and the tree builder -/

theorem pqPush_length (t : HTree) (l : List HTree) :
    (pqPush t l).length = l.length + 1 := by
  induction l with
  | nil => rfl
  | cons u us ih =>
    simp only [pqPush]
    split_ifs
    · simp
    · simp [ih]

theorem pqPush_perm (t : HTree) (l : List HTree) : (pqPush t l).Perm (t :: l) := by
  induction l with
  | nil => exact List.Perm.refl _
  | cons u us ih =>
    simp only [pqPush]
    split_ifs
    · exact List.Perm.refl _
    · exact (ih.cons u).trans (List.Perm.swap t u us)

theorem pqPush_ne_nil (t : HTree) (l : List HTree) : pqPush t l ≠ [] := by
  cases l with
  | nil => simp [pqPush]
  | cons u us =>
    simp only [pqPush]
    split_ifs <;> simp

theorem mem_pqPush {t : HTree} {l : List HTree} {x : HTree}
    (h : x ∈ pqPush t l) : x = t ∨ x ∈ l := by
  have := (pqPush_perm t l).mem_iff.mp h
  simpa using this

theorem buildLoopN_zero (l : List HTree) : buildLoopN 0 l = l := by
  cases l with
  | nil => rfl
  | cons a t => cases t <;> rfl

theorem buildLoopN_singleton (n : Nat) (a : HTree) : buildLoopN n [a] = [a] := by
  cases n <;> rfl

theorem buildLoopN_length {n : Nat} {l : List HTree} (h0 : l ≠ [])
    (h : l.length ≤ n + 1) : (buildLoopN n l).length = 1 := by
  induction n generalizing l with
  | zero =>
    cases l with
    | nil => exact absurd rfl h0
    | cons a t =>
      cases t with
      | nil => rfl
      | cons b rest => simp at h
  | succ n ih =>
    cases l with
    | nil => exact absurd rfl h0
    | cons a t =>
      cases t with
      | nil => rfl
      | cons b rest =>
        show (buildLoopN n (pqPush (.mk 36 ((a.freq + b.freq) % M32) a b) rest)).length = 1
        apply ih (pqPush_ne_nil _ _)
        rw [pqPush_length]
        simp only [List.length_cons] at h
        omega

theorem buildLoopN_merge {n : Nat} {l : List HTree} (h2 : 2 ≤ l.length)
    (h : l.length ≤ n + 1) (hnn : ∀ x ∈ l, x ≠ HTree.null) :
    ∃ f x y, buildLoopN n l = [HTree.mk 36 f x y] ∧ x ≠ HTree.null ∧ y ≠ HTree.null := by
  induction n generalizing l with
  | zero =>
    cases l with
    | nil => simp at h2
    | cons a t =>
      cases t with
      | nil => simp at h2
      | cons b rest => simp at h
  | succ n ih =>
    cases l with
    | nil => simp at h2
    | cons a t =>
      cases t with
      | nil => simp at h2
      | cons b rest =>
        have ha : a ≠ HTree.null := hnn a (List.mem_cons_self _ _)
        have hb : b ≠ HTree.null :=
          hnn b (List.mem_cons_of_mem _ (List.mem_cons_self _ _))
        show ∃ f x y,
          buildLoopN n (pqPush (.mk 36 ((a.freq + b.freq) % M32) a b) rest) =
            [HTree.mk 36 f x y] ∧ x ≠ HTree.null ∧ y ≠ HTree.null
        cases rest with
        | nil =>
          exact ⟨(a.freq + b.freq) % M32, a, b, buildLoopN_singleton n _, ha, hb⟩
        | cons c rest2 =>
          apply ih
          · rw [pqPush_length]
            simp
          · rw [pqPush_length]
            simp only [List.length_cons] at h ⊢
            omega
          · intro x hx
            rcases mem_pqPush hx with rfl | hx
            · intro hh
              cases hh
            · exact hnn x (List.mem_cons_of_mem _ (List.mem_cons_of_mem _ hx))

theorem leafData_merge {a : HTree} (b : HTree) (ha : a ≠ HTree.null) (f : Nat) :
    leafData (.mk 36 f a b) = leafData a ++ leafData b := by
  cases a with
  | null => exact absurd rfl ha
  | mk d fr x y => cases b <;> rfl

theorem buildLoopN_leafData {n : Nat} {l : List HTree}
    (hnn : ∀ x ∈ l, x ≠ HTree.null) :
    ((buildLoopN n l).map leafData).flatten.Perm ((l.map leafData).flatten) := by
  induction n generalizing l with
  | zero => rw [buildLoopN_zero]
  | succ n ih =>
    cases l with
    | nil => exact List.Perm.refl _
    | cons a t =>
      cases t with
      | nil => exact List.Perm.refl _
      | cons b rest =>
        have ha : a ≠ HTree.null := hnn a (List.mem_cons_self _ _)
        have hb : b ≠ HTree.null :=
          hnn b (List.mem_cons_of_mem _ (List.mem_cons_self _ _))
        show ((buildLoopN n
            (pqPush (.mk 36 ((a.freq + b.freq) % M32) a b) rest)).map
              leafData).flatten.Perm _
        have hnn2 : ∀ x ∈ pqPush (.mk 36 ((a.freq + b.freq) % M32) a b) rest,
            x ≠ HTree.null := by
          intro x hx
          rcases mem_pqPush hx with rfl | hx
          · intro hh
            cases hh
          · exact hnn x (List.mem_cons_of_mem _ (List.mem_cons_of_mem _ hx))
        refine (ih hnn2).trans ?_
        refine (((pqPush_perm _ rest).map leafData).flatten).trans ?_
        rw [List.map_cons, List.flatten_cons, leafData_merge b ha,
          List.map_cons, List.flatten_cons, List.map_cons, List.flatten_cons,
          List.append_assoc]

theorem foldl_pqPush_perm (fl : List (Nat × Nat)) (acc : List HTree) :
    (fl.foldl (fun pq p => pqPush (.mk p.1 p.2 .null .null) pq) acc).Perm
      (acc ++ fl.map (fun p => .mk p.1 p.2 .null .null)) := by
  induction fl generalizing acc with
  | nil => simp
  | cons p fl ih =>
    simp only [List.foldl_cons, List.map_cons]
    refine (ih _).trans ?_
    refine ((pqPush_perm _ acc).append_right _).trans ?_
    exact List.perm_middle.symm

theorem buildHuffmanTree_single {fl : List (Nat × Nat)} {x : HTree}
    (h : fl.foldl (fun pq p => pqPush (.mk p.1 p.2 .null .null) pq) [] = [x]) :
    buildHuffmanTree fl = .mk 36 x.freq x .null := by
  unfold buildHuffmanTree
  rw [h]
  rfl

theorem buildHuffmanTree_multi {fl : List (Nat × Nat)} {x y : HTree} {t : List HTree}
    (h : fl.foldl (fun pq p => pqPush (.mk p.1 p.2 .null .null) pq) [] = x :: y :: t) :
    buildHuffmanTree fl =
      match buildLoopN (t.length + 2) (x :: y :: t) with
      | root :: _ => root
      | [] => .null := by
  unfold buildHuffmanTree
  rw [h]
  rfl

theorem flatten_map_key (fl : List (Nat × Nat)) :
    (fl.map (fun p => [p.1])).flatten = fl.map Prod.fst := by
  induction fl with
  | nil => rfl
  | cons p t ih => simp [ih]

theorem buildHuffmanTree_spec {fl : List (Nat × Nat)} (hne : fl ≠ []) :
    ∃ d f a b, buildHuffmanTree fl = .mk d f a b ∧ a ≠ HTree.null ∧
      (leafData (.mk d f a b)).Perm (fl.map Prod.fst) := by
  have hperm := foldl_pqPush_perm fl []
  rw [List.nil_append] at hperm
  rcases hpq : fl.foldl (fun pq p => pqPush (.mk p.1 p.2 .null .null) pq) [] with
    _ | ⟨x, _ | ⟨y, t⟩⟩
  · rw [hpq] at hperm
    have hmap := List.perm_nil.mp hperm.symm
    rw [List.map_eq_nil_iff] at hmap
    exact absurd hmap hne
  · rw [hpq] at hperm
    have hmap : fl.map (fun p => HTree.mk p.1 p.2 .null .null) = [x] :=
      List.perm_singleton.mp hperm.symm
    cases fl with
    | nil => exact absurd rfl hne
    | cons p fl2 =>
      rw [List.map_cons] at hmap
      have hx : HTree.mk p.1 p.2 .null .null = x := (List.cons.injEq .. ▸ hmap).1
      have hfl2 : fl2.map (fun p => HTree.mk p.1 p.2 .null .null) = [] :=
        (List.cons.injEq .. ▸ hmap).2
      rw [List.map_eq_nil_iff] at hfl2
      subst hfl2
      refine ⟨36, x.freq, x, .null, buildHuffmanTree_single hpq, ?_, ?_⟩
      · rw [← hx]
        intro hh
        cases hh
      · rw [leafData_merge .null (by rw [← hx]; intro hh; cases hh)]
        rw [← hx]
        exact List.Perm.refl _
  · have hnn : ∀ z ∈ x :: y :: t, z ≠ HTree.null := by
      intro z hz
      rw [hpq] at hperm
      have hz2 := hperm.mem_iff.mp hz
      obtain ⟨p, _, hp2⟩ := List.mem_map.mp hz2
      rw [← hp2]
      intro hh
      cases hh
    obtain ⟨f, a, b, heq, ha, hb⟩ :=
      buildLoopN_merge (n := t.length + 2) (l := x :: y :: t)
        (by simp only [List.length_cons]; omega)
        (by simp only [List.length_cons]; omega) hnn
    have hld := buildLoopN_leafData (n := t.length + 2) hnn
    rw [heq] at hld
    simp only [List.map_cons, List.map_nil, List.flatten_cons, List.flatten_nil,
      List.append_nil] at hld
    refine ⟨36, f, a, b, ?_, ha, ?_⟩
    · rw [buildHuffmanTree_multi hpq, heq]
    · refine hld.trans ?_
      rw [hpq] at hperm
      refine ((hperm.map leafData).flatten).trans ?_
      rw [List.map_map]
      have : (leafData ∘ fun p : Nat × Nat => HTree.mk p.1 p.2 .null .null) =
          fun p : Nat × Nat => [p.1] := by
        funext p
        rfl
      rw [this, flatten_map_key]

/-! ## The code table -/

theorem generateCodes_keys (t : HTree) (pre : List Bool) :
    (generateCodes t pre).map Prod.fst = leafData t := by
  induction t generalizing pre with
  | null => rfl
  | mk d f l r ihl ihr =>
    simp only [generateCodes, List.map_append, ihl, ihr]
    cases l with
    | null =>
      cases r with
      | null => rfl
      | mk rd rf rl rr => rfl
    | mk ld lf ll lr => cases r <;> rfl

theorem generateCodes_extends {t : HTree} {pre : List Bool} {p : Nat × List Bool}
    (h : p ∈ generateCodes t pre) : ∃ suf, p.2 = pre ++ suf := by
  induction t generalizing pre with
  | null => cases h
  | mk d f l r ihl ihr =>
    simp only [generateCodes, List.mem_append] at h
    rcases h with (h4 | h4) | h4
    · cases l with
      | null =>
        cases r with
        | null =>
          obtain rfl : p = (d, pre) := by simpa using h4
          exact ⟨[], by simp⟩
        | mk rd rf rl rr => simp at h4
      | mk ld lf ll lr => cases r <;> simp at h4
    · obtain ⟨suf, hs⟩ := ihl h4
      exact ⟨[false] ++ suf, by simp [hs]⟩
    · obtain ⟨suf, hs⟩ := ihr h4
      exact ⟨[true] ++ suf, by simp [hs]⟩

theorem pathTo_of_mem_generateCodes {t : HTree} {pre : List Bool} {s : Nat}
    {c : List Bool} (h : (s, c) ∈ generateCodes t pre) :
    ∃ suf, c = pre ++ suf ∧ PathTo t suf s := by
  induction t generalizing pre c with
  | null => cases h
  | mk d f l r ihl ihr =>
    simp only [generateCodes, List.mem_append] at h
    rcases h with (h4 | h4) | h4
    · cases l with
      | null =>
        cases r with
        | null =>
          obtain ⟨rfl, rfl⟩ : s = d ∧ c = pre := by simpa using h4
          exact ⟨[], by simp, PathTo.leaf s f⟩
        | mk rd rf rl rr => simp at h4
      | mk ld lf ll lr => cases r <;> simp at h4
    · obtain ⟨suf, hc, hp⟩ := ihl h4
      exact ⟨false :: suf, by simp [hc], PathTo.stepL d f l r suf s hp⟩
    · obtain ⟨suf, hc, hp⟩ := ihr h4
      exact ⟨true :: suf, by simp [hc], PathTo.stepR d f l r suf s hp⟩

theorem isPre_append_cancel {pre a b : List Bool} (h : isPre (pre ++ a) (pre ++ b)) :
    isPre a b := by
  obtain ⟨u, hu⟩ := h
  rw [List.append_assoc] at hu
  exact ⟨u, List.append_cancel_left hu⟩

theorem not_isPre_branches {pre x y : List Bool} :
    ¬ isPre (pre ++ [false] ++ x) (pre ++ [true] ++ y) := by
  intro h
  rw [List.append_assoc, List.append_assoc] at h
  obtain ⟨u, hu⟩ := isPre_append_cancel h
  simp at hu

theorem not_isPre_branches2 {pre x y : List Bool} :
    ¬ isPre (pre ++ [true] ++ x) (pre ++ [false] ++ y) := by
  intro h
  rw [List.append_assoc, List.append_assoc] at h
  obtain ⟨u, hu⟩ := isPre_append_cancel h
  simp at hu

theorem pairwise_generateCodes (t : HTree) (pre : List Bool) :
    (generateCodes t pre).Pairwise
      (fun p q => ¬ isPre p.2 q.2 ∧ ¬ isPre q.2 p.2) := by
  induction t generalizing pre with
  | null => exact List.Pairwise.nil
  | mk d f l r ihl ihr =>
    simp only [generateCodes]
    have hcross : ∀ p ∈ generateCodes l (pre ++ [false]),
        ∀ q ∈ generateCodes r (pre ++ [true]),
        ¬ isPre p.2 q.2 ∧ ¬ isPre q.2 p.2 := by
      intro p hp q hq
      obtain ⟨sp, hsp⟩ := generateCodes_extends hp
      obtain ⟨sq, hsq⟩ := generateCodes_extends hq
      rw [hsp, hsq]
      exact ⟨not_isPre_branches, not_isPre_branches2⟩
    have hlr : List.Pairwise (fun p q => ¬ isPre p.2 q.2 ∧ ¬ isPre q.2 p.2)
        (generateCodes l (pre ++ [false]) ++ generateCodes r (pre ++ [true])) :=
      List.pairwise_append.mpr ⟨ihl _, ihr _, hcross⟩
    cases l with
    | null =>
      cases r with
      | null => simp [generateCodes]
      | mk rd rf rl rr => simpa using hlr
    | mk ld lf ll lr => cases r <;> simpa using hlr

/-! ## Decoding along codeword paths -/

theorem pathTo_ne_null {t : HTree} {c : List Bool} {s : Nat} (h : PathTo t c s) :
    t ≠ HTree.null := by
  cases h <;> intro hh <;> cases hh

theorem pathTo_nil_inv {t : HTree} {s : Nat} (h : PathTo t [] s) :
    ∃ f, t = HTree.mk s f HTree.null HTree.null := by
  cases h with
  | leaf d f => exact ⟨f, rfl⟩

theorem pathTo_cons_inv {t : HTree} {b : Bool} {c : List Bool} {s : Nat}
    (h : PathTo t (b :: c) s) :
    ∃ d f l r, t = HTree.mk d f l r ∧ PathTo (if b then r else l) c s := by
  cases h with
  | stepL d f l r c2 s2 hl => exact ⟨d, f, l, r, rfl, by simpa using hl⟩
  | stepR d f l r c2 s2 hr => exact ⟨d, f, l, r, rfl, by simpa using hr⟩

theorem pathTo_shape {t : HTree} {c : List Bool} {s : Nat} (h : PathTo t c s)
    (hc : c ≠ []) :
    ∃ d f l r, t = HTree.mk d f l r ∧ ¬(l = HTree.null ∧ r = HTree.null) := by
  cases c with
  | nil => exact absurd rfl hc
  | cons b c2 =>
    obtain ⟨d, f, l, r, rfl, hp⟩ := pathTo_cons_inv h
    refine ⟨d, f, l, r, rfl, ?_⟩
    rintro ⟨rfl, rfl⟩
    have hnn := pathTo_ne_null hp
    cases b <;> simp at hnn

theorem decodeBitsAux_zero (rootO : HTree) (cur : HTree) (bs : List Bool)
    (out : List Nat) : decodeBitsAux rootO cur bs out 0 = some out := by
  cases bs with
  | nil => rfl
  | cons b t => simp [decodeBitsAux]

theorem decodeBitsAux_step_leaf {rootO : HTree} {d f s fs : Nat} {l r : HTree}
    {b : Bool} (hu : (if b then r else l) = HTree.mk s fs HTree.null HTree.null)
    (bs : List Bool) (out : List Nat) (rem : Nat) :
    decodeBitsAux rootO (HTree.mk d f l r) (b :: bs) out (rem + 1) =
      decodeBitsAux rootO rootO bs (out ++ [s]) rem := by
  cases b <;> simp only [if_pos, if_neg, Bool.false_eq_true] at hu <;> subst hu <;> rfl

theorem decodeBitsAux_step_nonleaf {rootO : HTree} {d f : Nat} {l r : HTree}
    {b : Bool} {d2 f2 : Nat} {l2 r2 : HTree}
    (hu : (if b then r else l) = HTree.mk d2 f2 l2 r2)
    (hne : ¬(l2 = HTree.null ∧ r2 = HTree.null))
    (bs : List Bool) (out : List Nat) (rem : Nat) :
    decodeBitsAux rootO (HTree.mk d f l r) (b :: bs) out (rem + 1) =
      decodeBitsAux rootO (HTree.mk d2 f2 l2 r2) bs out (rem + 1) := by
  cases b <;> simp only [if_pos, if_neg, Bool.false_eq_true] at hu <;> subst hu <;>
    cases l2 <;> cases r2 <;> first
      | rfl
      | exact absurd ⟨rfl, rfl⟩ hne

theorem decodeBitsAux_path {rootO : HTree} : ∀ {c : List Bool} {t : HTree} {s : Nat},
    PathTo t c s → c ≠ [] → ∀ (rest : List Bool) (out : List Nat) (rem : Nat),
    decodeBitsAux rootO t (c ++ rest) out (rem + 1) =
      decodeBitsAux rootO rootO rest (out ++ [s]) rem := by
  intro c
  induction c with
  | nil => exact fun h hc => absurd rfl hc
  | cons b c2 ih =>
    intro t s h _ rest out rem
    obtain ⟨d, f, l, r, rfl, hp⟩ := pathTo_cons_inv h
    cases hc2 : c2 with
    | nil =>
      subst hc2
      obtain ⟨fs, hu⟩ := pathTo_nil_inv hp
      exact decodeBitsAux_step_leaf hu rest out rem
    | cons b2 c3 =>
      subst hc2
      obtain ⟨d2, f2, l2, r2, hu, hshape⟩ := pathTo_shape hp (by simp)
      rw [show ((b :: (b2 :: c3)) ++ rest) = b :: ((b2 :: c3) ++ rest) from rfl,
        decodeBitsAux_step_nonleaf hu hshape]
      rw [hu] at hp
      exact ih hp (by simp) rest out rem

theorem decodeBitsAux_prefixWalk {rootO : HTree} : ∀ {c1 : List Bool} {t : HTree}
    {c2 : List Bool} {s : Nat}, PathTo t (c1 ++ c2) s → c2 ≠ [] →
    ∀ (out : List Nat) (rem : Nat), decodeBitsAux rootO t c1 out rem = some out := by
  intro c1
  induction c1 with
  | nil => exact fun _ _ _ _ => rfl
  | cons b c1t ih =>
    intro t c2 s h hc2 out rem
    cases rem with
    | zero => exact decodeBitsAux_zero rootO t (b :: c1t) out
    | succ m =>
      obtain ⟨d, f, l, r, rfl, hp⟩ := pathTo_cons_inv h
      obtain ⟨d2, f2, l2, r2, hu, hshape⟩ := pathTo_shape hp (by
        intro hh
        have hh2 : c1t ++ c2 = [] := hh
        rw [List.append_eq_nil] at hh2
        exact hc2 hh2.2)
      rw [decodeBitsAux_step_nonleaf hu hshape]
      rw [hu] at hp
      exact ih hp hc2 out (m + 1)

theorem decodeBitsAux_encode (rootO : HTree) (cf : Nat → List Bool) :
    ∀ (σ : List Nat), (∀ s ∈ σ, PathTo rootO (cf s) s ∧ cf s ≠ []) →
    ∀ (rest : List Bool) (out : List Nat) (rem : Nat), σ.length ≤ rem →
    decodeBitsAux rootO rootO ((σ.map cf).flatten ++ rest) out rem =
      decodeBitsAux rootO rootO rest (out ++ σ) (rem - σ.length) := by
  intro σ
  induction σ with
  | nil => simp
  | cons s σ2 ih =>
    intro hσ rest out rem hrem
    obtain ⟨hp, hne⟩ := hσ s (List.mem_cons_self _ _)
    obtain ⟨m, rfl⟩ : ∃ m, rem = m + 1 := by
      cases rem with
      | zero => simp at hrem
      | succ m => exact ⟨m, rfl⟩
    rw [List.map_cons, List.flatten_cons, List.append_assoc,
      decodeBitsAux_path hp hne, ih (fun x hx => hσ x (List.mem_cons_of_mem _ hx))
        rest (out ++ [s]) m (by simpa using hrem)]
    rw [List.append_assoc]
    simp

/-! ## Bit packing -/

theorem byteToBits_bitsToByte (b0 b1 b2 b3 b4 b5 b6 b7 : Bool) :
    byteToBits (bitsToByte [b0, b1, b2, b3, b4, b5, b6, b7]) =
      [b0, b1, b2, b3, b4, b5, b6, b7] := by
  revert b0 b1 b2 b3 b4 b5 b6 b7
  decide

theorem bitsToByte_lt_pow (bs : List Bool) : bitsToByte bs < 2 ^ bs.length := by
  suffices h : ∀ (l : List Bool) (a : Nat),
      l.foldl (fun a b => 2 * a + (if b then 1 else 0)) a < (a + 1) * 2 ^ l.length by
    have h2 := h bs 0
    simpa [bitsToByte] using h2
  intro l
  induction l with
  | nil => intro a; simp
  | cons b t ih =>
    intro a
    simp only [List.foldl_cons, List.length_cons]
    calc t.foldl (fun a b => 2 * a + (if b then 1 else 0))
          (2 * a + (if b then 1 else 0))
        < (2 * a + (if b then 1 else 0) + 1) * 2 ^ t.length := ih _
      _ ≤ (2 * a + 2) * 2 ^ t.length := by
          have hb : (if b then 1 else 0) ≤ 1 := by cases b <;> simp
          exact Nat.mul_le_mul_right _ (by omega)
      _ = (a + 1) * 2 ^ (t.length + 1) := by ring

theorem bitsToByte_append (xs ys : List Bool) :
    bitsToByte (xs ++ ys) =
      ys.foldl (fun a b => 2 * a + (if b then 1 else 0)) (bitsToByte xs) := by
  unfold bitsToByte
  rw [List.foldl_append]

theorem foldl_bit_replicate_false (k v : Nat) :
    (List.replicate k false).foldl (fun a b => 2 * a + (if b then 1 else 0)) v =
      v * 2 ^ k := by
  induction k generalizing v with
  | zero => simp
  | succ k ih =>
    rw [List.replicate_succ, List.foldl_cons]
    simp only [if_neg (by simp : ¬(false = true))]
    rw [ih]
    ring

theorem bitsToByte_pad (r : List Bool) (k : Nat) :
    bitsToByte (r ++ List.replicate k false) = bitsToByte r * 2 ^ k := by
  rw [bitsToByte_append, foldl_bit_replicate_false]

theorem bitsToByte_snoc (r : List Bool) (b : Bool) :
    bitsToByte (r ++ [b]) = 2 * bitsToByte r + (if b then 1 else 0) := by
  rw [bitsToByte_append]
  rfl

theorem exists_eight {c : List Bool} (h : c.length = 8) :
    ∃ b0 b1 b2 b3 b4 b5 b6 b7, c = [b0, b1, b2, b3, b4, b5, b6, b7] := by
  rcases c with _ | ⟨b0, _ | ⟨b1, _ | ⟨b2, _ | ⟨b3, _ | ⟨b4, _ | ⟨b5, _ |
    ⟨b6, _ | ⟨b7, rest⟩⟩⟩⟩⟩⟩⟩⟩
  · simp at h
  · simp at h
  · simp at h
  · simp at h
  · simp at h
  · simp at h
  · simp at h
  · simp at h
  · cases rest with
    | nil => exact ⟨b0, b1, b2, b3, b4, b5, b6, b7, rfl⟩
    | cons x t => simp at h

theorem packBits_chunk {c : List Bool} (h : c.length = 8) (rest : List Bool) :
    packBits (c ++ rest) = bitsToByte c :: packBits rest := by
  obtain ⟨b0, b1, b2, b3, b4, b5, b6, b7, rfl⟩ := exists_eight h
  rfl

theorem packBits_short (r : List Bool) (h1 : 0 < r.length) (h2 : r.length < 8) :
    packBits r = [bitsToByte (r ++ List.replicate (8 - r.length) false)] := by
  rcases r with _ | ⟨a0, _ | ⟨a1, _ | ⟨a2, _ | ⟨a3, _ | ⟨a4, _ | ⟨a5, _ |
    ⟨a6, _ | ⟨a7, rest⟩⟩⟩⟩⟩⟩⟩⟩
  · simp at h1
  · rfl
  · rfl
  · rfl
  · rfl
  · rfl
  · rfl
  · rfl
  · simp only [List.length_cons] at h2
    omega

theorem bytesToBits_nil : bytesToBits [] = [] := rfl

theorem bytesToBits_cons (v : Nat) (rest : List Nat) :
    bytesToBits (v :: rest) = byteToBits v ++ bytesToBits rest := rfl

theorem bytesToBits_packBits (bits : List Bool) :
    bytesToBits (packBits bits) =
      bits ++ List.replicate ((8 - bits.length % 8) % 8) false := by
  suffices h : ∀ (n : Nat) (bs : List Bool), bs.length ≤ n →
      bytesToBits (packBits bs) =
        bs ++ List.replicate ((8 - bs.length % 8) % 8) false from
    h bits.length bits le_rfl
  intro n
  induction n using Nat.strong_induction_on with
  | _ n ih =>
    intro bs hlen
    by_cases h8 : 8 ≤ bs.length
    · obtain ⟨c, rest, rfl, hc⟩ : ∃ c rest, bs = c ++ rest ∧ c.length = 8 :=
        ⟨bs.take 8, bs.drop 8, (List.take_append_drop 8 bs).symm,
          by rw [List.length_take]; omega⟩
      rw [packBits_chunk hc, bytesToBits_cons]
      obtain ⟨b0, b1, b2, b3, b4, b5, b6, b7, rfl⟩ := exists_eight hc
      rw [byteToBits_bitsToByte]
      have hreclen : rest.length < n := by
        simp only [List.length_append] at hlen
        omega
      rw [ih rest.length hreclen rest le_rfl]
      rw [List.append_assoc]
      congr 2
      simp only [List.length_append, hc]
      congr 2
      omega
    · push_neg at h8
      rcases Nat.eq_zero_or_pos bs.length with h0 | h0
      · have : bs = [] := List.eq_nil_of_length_eq_zero h0
        subst this
        rfl
      · rw [packBits_short bs h0 h8, bytesToBits_cons, bytesToBits_nil,
          List.append_nil]
        have hfull : (bs ++ List.replicate (8 - bs.length) false).length = 8 := by
          simp only [List.length_append, List.length_replicate]
          omega
        obtain ⟨b0, b1, b2, b3, b4, b5, b6, b7, hexp⟩ := exists_eight hfull
        rw [hexp, byteToBits_bitsToByte, ← hexp]
        congr 2
        omega

theorem fold_pushBit (bits : List Bool) : ∀ (r : List Bool) (out : List Nat),
    r.length < 8 →
    flushPack (bits.foldl pushBit (bitsToByte r, r.length, out)) =
      out ++ packBits (r ++ bits) := by
  induction bits with
  | nil =>
    intro r out hr
    simp only [List.foldl_nil, flushPack]
    by_cases h0 : r.length = 0
    · have hnil : r = [] := List.eq_nil_of_length_eq_zero h0
      subst hnil
      simp [packBits]
    · rw [if_neg h0, List.append_nil, packBits_short r (by omega) hr, bitsToByte_pad]
      have hlt : bitsToByte r * 2 ^ (8 - r.length) < 256 := by
        have h1 := bitsToByte_lt_pow r
        have h2 : 2 ^ r.length * 2 ^ (8 - r.length) = 2 ^ 8 := by
          rw [← pow_add]
          congr 1
          omega
        calc bitsToByte r * 2 ^ (8 - r.length)
            < 2 ^ r.length * 2 ^ (8 - r.length) :=
              mul_lt_mul_of_pos_right h1 (by positivity)
          _ = 256 := h2
      rw [Nat.mod_eq_of_lt hlt]
  | cons b bs ih =>
    intro r out hr
    simp only [List.foldl_cons]
    have hbuflt : 2 * bitsToByte r + (if b then 1 else 0) < 256 := by
      have h1 := bitsToByte_lt_pow r
      have hb : (if b then 1 else 0) ≤ 1 := by cases b <;> simp
      have h2 : 2 ^ r.length ≤ 2 ^ 7 := Nat.pow_le_pow_right (by omega) (by omega)
      omega
    have hpush : pushBit (bitsToByte r, r.length, out) b =
        if r.length + 1 = 8 then (0, 0, out ++ [bitsToByte (r ++ [b])])
        else (bitsToByte (r ++ [b]), r.length + 1, out) := by
      simp only [pushBit, bitsToByte_snoc]
      rw [Nat.mod_eq_of_lt hbuflt]
    rw [hpush]
    by_cases h8 : r.length + 1 = 8
    · rw [if_pos h8]
      have hrec := ih [] (out ++ [bitsToByte (r ++ [b])]) (by simp)
      have hinit : (bitsToByte [], ([] : List Bool).length,
          out ++ [bitsToByte (r ++ [b])]) =
          ((0 : Nat), (0 : Nat), out ++ [bitsToByte (r ++ [b])]) := rfl
      rw [hinit] at hrec
      rw [hrec, List.nil_append]
      have hsplit : r ++ b :: bs = (r ++ [b]) ++ bs := by simp
      rw [hsplit, packBits_chunk (by simp; omega), List.append_assoc]
      rfl
    · rw [if_neg h8]
      have hrec := ih (r ++ [b]) out (by simp only [List.length_append]; simp; omega)
      have hlen : (r ++ [b]).length = r.length + 1 := by simp
      rw [hlen] at hrec
      rw [hrec]
      congr 1
      simp

theorem writeCompressedData_eq (tbl : List (Nat × List Bool)) (S : List Nat) :
    writeCompressedData tbl S = packBits ((S.map (codeOf tbl)).flatten) := by
  have h1 : writeCompressedData tbl S =
      flushPack (S.foldl (fun st c => (codeOf tbl c).foldl pushBit st) (0, 0, [])) := by
    unfold writeCompressedData flushPack
    rcases S.foldl (fun st c => (codeOf tbl c).foldl pushBit st) (0, 0, []) with
      ⟨buf, cnt, o⟩
    rfl
  rw [h1]
  have h2 : S.foldl (fun st c => (codeOf tbl c).foldl pushBit st) (0, 0, []) =
      ((S.map (codeOf tbl)).flatten).foldl pushBit (0, 0, []) := by
    rw [List.foldl_flatten, List.foldl_map]
  rw [h2]
  have h3 := fold_pushBit ((S.map (codeOf tbl)).flatten) [] [] (by simp)
  simp only [List.nil_append] at h3
  exact h3

/-! ## From the byte-level loop to the bit-level decoder -/

theorem procBits_decode (rootO : HTree) : ∀ (bits : List Bool) (cur : HTree)
    (out : List Nat) (rem : Nat) (bs2 : List Bool),
    decodeBitsAux rootO cur (bits ++ bs2) out rem =
      match procBits rootO bits cur out rem with
      | none => none
      | some (c, o, r) => decodeBitsAux rootO c bs2 o r := by
  intro bits
  induction bits with
  | nil => intro cur out rem bs2; rfl
  | cons b bs ih =>
    intro cur out rem bs2
    by_cases hrem : rem = 0
    · subst hrem
      rw [show ((b :: bs) ++ bs2) = b :: (bs ++ bs2) from rfl, decodeBitsAux_zero,
        show procBits rootO (b :: bs) cur out 0 = some (cur, out, 0) from by
          simp [procBits]]
      dsimp only
      rw [decodeBitsAux_zero]
    · obtain ⟨m, rfl⟩ : ∃ m, rem = m + 1 := ⟨rem - 1, by omega⟩
      cases cur with
      | null => rfl
      | mk d f l r =>
        cases b with
        | false =>
          cases l with
          | null => exact ih _ out (m + 1) bs2
          | mk d2 f2 l2 r2 =>
            cases l2 <;> cases r2 <;>
              first
                | exact ih _ (out ++ [d2]) m bs2
                | exact ih _ out (m + 1) bs2
        | true =>
          cases r with
          | null => exact ih _ out (m + 1) bs2
          | mk d2 f2 l2 r2 =>
            cases l2 <;> cases r2 <;>
              first
                | exact ih _ (out ++ [d2]) m bs2
                | exact ih _ out (m + 1) bs2

theorem decodeDataLoop_failed (rootO cur : HTree) (out : List Nat) (rem : Nat)
    (data : List Nat) (att : Nat) :
    decodeDataLoop rootO cur out rem data true att =
      (some out, ⟨data, true, att + 1⟩) := by
  cases data <;> rfl

theorem decodeDataLoop_flat (rootO : HTree) : ∀ (data : List Nat) (cur : HTree)
    (out : List Nat) (rem : Nat) (att : Nat),
    (decodeDataLoop rootO cur out rem data false att).1 =
      decodeBitsAux rootO cur (bytesToBits data) out rem := by
  intro data
  induction data with
  | nil => intro cur out rem att; rfl
  | cons v rest ih =>
    intro cur out rem att
    rw [bytesToBits_cons]
    by_cases hrem : rem = 0
    · subst hrem
      rw [decodeBitsAux_zero,
        show decodeDataLoop rootO cur out 0 (v :: rest) false att =
          (some out, ⟨rest, false, att + 1⟩) from by simp [decodeDataLoop]]
    · have hd := procBits_decode rootO (byteToBits v) cur out rem (bytesToBits rest)
      rcases hp : procBits rootO (byteToBits v) cur out rem with _ | ⟨⟨c, o, r⟩⟩
      · rw [hp] at hd
        rw [show decodeDataLoop rootO cur out rem (v :: rest) false att =
            (none, ⟨rest, false, att + 1⟩) from by
          simp [decodeDataLoop, hrem, hp]]
        simpa using hd.symm
      · rw [hp] at hd
        rw [show decodeDataLoop rootO cur out rem (v :: rest) false att =
            decodeDataLoop rootO c o r rest false (att + 1) from by
          simp [decodeDataLoop, hrem, hp]]
        rw [ih c o r (att + 1)]
        simpa using hd.symm

/-! ## Failure paths of the header reader -/

theorem readHeaderLoop_failed (junk : Junk) : ∀ (n : Nat) (acc : List (Nat × Nat))
    (a : Nat), (readHeaderLoop junk n acc ⟨[], true, a⟩).2 = ⟨[], true, a + 2 * n⟩ := by
  intro n
  induction n with
  | zero => intro acc a; rfl
  | succ n ih =>
    intro acc a
    show (readHeaderLoop junk (n + 1) acc ⟨[], true, a⟩).2 = _
    unfold readHeaderLoop
    rw [readB_failed 1 [] a]
    dsimp only
    rw [readB_failed 4 [] (a + 1)]
    dsimp only
    rw [ih _ (a + 1 + 1)]
    have : a + 1 + 1 + 2 * n = a + 2 * (n + 1) := by omega
    rw [this]

theorem decompress_nil_out (junk : Junk) : (decompress junk []).1 = some [] := by
  unfold decompress readHeader
  rw [readB_short 8 [] 0 (by simp)]
  dsimp only
  rcases hkh : readHeaderLoop junk (junk.size % M64) [] ⟨[], true, 1⟩ with ⟨fl, s1⟩
  have hs1 : s1 = ⟨[], true, 1 + 2 * (junk.size % M64)⟩ := by
    have h2 := readHeaderLoop_failed junk (junk.size % M64) [] 1
    rw [hkh] at h2
    exact h2
  subst hs1
  unfold decodeData
  by_cases h0 : totalChars fl = 0
  · rw [if_pos h0]
  · rw [if_neg h0]
    rw [show (⟨[], true, 1 + 2 * (junk.size % M64)⟩ : IStr).data = [] from rfl,
      show (⟨[], true, 1 + 2 * (junk.size % M64)⟩ : IStr).fail = true from rfl,
      decodeDataLoop_failed]

/-! ## The code table of a built tree is usable for decoding -/

theorem codeOf_of_mem {tbl : List (Nat × List Bool)}
    (hnd : (tbl.map Prod.fst).Nodup) {s : Nat} {c : List Bool}
    (h : (s, c) ∈ tbl) : codeOf tbl s = c := by
  induction tbl with
  | nil => cases h
  | cons q t ih =>
    obtain ⟨k, w⟩ := q
    rcases List.mem_cons.mp h with h2 | h2
    · obtain ⟨rfl, rfl⟩ := Prod.mk.injEq .. ▸ h2
      unfold codeOf
      rw [List.find?_cons_of_pos _ (by simp)]
      rfl
    · have hks : k ≠ s := by
        rintro rfl
        rw [List.map_cons] at hnd
        have h3 : k ∈ List.map Prod.fst t := by
          have h4 := List.mem_map_of_mem Prod.fst h2
          simpa using h4
        exact (List.nodup_cons.mp hnd).1 h3
      unfold codeOf
      rw [List.find?_cons_of_neg _ (by simp [hks])]
      have := ih (by
        rw [List.map_cons] at hnd
        exact (List.nodup_cons.mp hnd).2) h2
      exact this

theorem codes_good {fl : List (Nat × Nat)} (hwf : WFFreq fl) (hne : fl ≠ []) :
    ∀ s ∈ fl.map Prod.fst,
      PathTo (buildHuffmanTree fl)
        (codeOf (generateCodes (buildHuffmanTree fl) []) s) s ∧
      codeOf (generateCodes (buildHuffmanTree fl) []) s ≠ [] := by
  obtain ⟨d, f, a, b, heq, ha, hperm⟩ := buildHuffmanTree_spec hne
  intro s hs
  have hkeys : (generateCodes (buildHuffmanTree fl) []).map Prod.fst =
      leafData (HTree.mk d f a b) := by
    rw [heq, generateCodes_keys]
  have hsmem : s ∈ (generateCodes (buildHuffmanTree fl) []).map Prod.fst := by
    rw [hkeys]
    exact hperm.mem_iff.mpr hs
  obtain ⟨p, hp, hps⟩ := List.mem_map.mp hsmem
  obtain ⟨s2, c⟩ := p
  rw [show s2 = s from hps] at hp
  have hnodup : ((generateCodes (buildHuffmanTree fl) []).map Prod.fst).Nodup := by
    rw [hkeys]
    exact (keys_nodup_of_wffreq hwf).perm hperm.symm
  have hcode : codeOf (generateCodes (buildHuffmanTree fl) []) s = c :=
    codeOf_of_mem hnodup hp
  rw [heq] at hp
  obtain ⟨suf, hcsuf, hpath⟩ := pathTo_of_mem_generateCodes hp
  rw [List.nil_append] at hcsuf
  subst hcsuf
  refine ⟨?_, ?_⟩
  · rw [hcode, heq]
    exact hpath
  · rw [hcode]
    intro hnil
    subst hnil
    obtain ⟨f2, hf2⟩ := pathTo_nil_inv hpath
    have hanull : a = HTree.null := (HTree.mk.injEq .. ▸ hf2.symm).2.2.1.symm
    exact ha hanull

/-! ## The round trip -/

theorem compress_eq {S : List Nat} (hne : buildFrequencyTable S ≠ []) :
    compress S = writeHeader (buildFrequencyTable S) ++
      writeCompressedData
        (generateCodes (buildHuffmanTree (buildFrequencyTable S)) []) S := by
  unfold compress
  rw [if_neg (by simpa [List.isEmpty_iff] using hne)]

theorem roundtrip (S : List Nat) (hb : ∀ b ∈ S, b < 256)
    (hc : ∀ b ∈ S, S.count b < M32) (junk : Junk) :
    (decompress junk (compress S)).1 = some S := by
  by_cases hSe : S = []
  · subst hSe
    rw [show compress [] = [] from rfl]
    exact decompress_nil_out junk
  · have hwf := wffreq_buildFrequencyTable hb
    have hflne := buildFrequencyTable_ne_nil hb hSe
    have htot := totalChars_buildFrequencyTable hb hc
    rw [compress_eq hflne]
    unfold decompress
    rw [readHeader_writeHeader junk hwf _]
    dsimp only
    unfold decodeData
    rw [if_neg (by
      rw [htot]
      intro h0
      exact hSe (List.eq_nil_of_length_eq_zero h0))]
    dsimp only
    rw [decodeDataLoop_flat, writeCompressedData_eq, bytesToBits_packBits, htot]
    have hgood : ∀ s ∈ S, PathTo (buildHuffmanTree (buildFrequencyTable S))
        (codeOf (generateCodes (buildHuffmanTree (buildFrequencyTable S)) []) s) s ∧
        codeOf (generateCodes (buildHuffmanTree (buildFrequencyTable S)) []) s ≠ [] :=
      fun s hs =>
        codes_good hwf hflne s ((mem_keys_buildFrequencyTable hb s).mpr hs)
    rw [decodeBitsAux_encode _ _ S hgood _ [] S.length le_rfl, Nat.sub_self,
      decodeBitsAux_zero]
    simp

/-! ## Frequency counts wrap at 32 bits -/

theorem foldl_mapIncr_replicate (b : Nat) : ∀ (k m : Nat),
    (List.replicate k b).foldl mapIncr [(b, m % M32)] = [(b, (m + k) % M32)] := by
  intro k
  induction k with
  | zero => intro m; rfl
  | succ k ih =>
    intro m
    rw [List.replicate_succ, List.foldl_cons]
    have hstep : mapIncr [(b, m % M32)] b = [(b, (m + 1) % M32)] := by
      unfold mapIncr
      rw [lookupFM_cons, if_pos rfl]
      simp only [Option.getD_some]
      rw [Nat.mod_add_mod]
      simp [mapAssign]
    rw [hstep, ih (m + 1)]
    have harith : m + 1 + k = m + (k + 1) := by omega
    rw [harith]

theorem buildFrequencyTable_replicate (b : Nat) (n : Nat) (hn : 0 < n) :
    buildFrequencyTable (List.replicate n b) = [(b, n % M32)] := by
  obtain ⟨k, rfl⟩ : ∃ k, n = k + 1 := ⟨n - 1, by omega⟩
  unfold buildFrequencyTable
  rw [List.replicate_succ, List.foldl_cons]
  have hstep : mapIncr [] b = [(b, 1 % M32)] := rfl
  rw [hstep, foldl_mapIncr_replicate b k 1]
  rw [Nat.add_comm 1 k]

/-! ## Truncating the packed bitstream -/

theorem writeHeader_length (fl : List (Nat × Nat)) :
    (writeHeader fl).length = 8 + 5 * fl.length := by
  unfold writeHeader
  rw [List.length_append, natToLE_length]
  congr 1
  induction fl with
  | nil => rfl
  | cons p t ih =>
    rw [List.map_cons, List.flatten_cons, List.length_append, ih]
    simp only [List.length_cons, natToLE_length, List.length_cons]
    omega

theorem packBits_length (bits : List Bool) :
    (packBits bits).length = (bits.length + 7) / 8 := by
  suffices h : ∀ (n : Nat) (bs : List Bool), bs.length ≤ n →
      (packBits bs).length = (bs.length + 7) / 8 from h bits.length bits le_rfl
  intro n
  induction n using Nat.strong_induction_on with
  | _ n ih =>
    intro bs hlen
    by_cases h8 : 8 ≤ bs.length
    · obtain ⟨c, rest, rfl, hc⟩ : ∃ c rest, bs = c ++ rest ∧ c.length = 8 :=
        ⟨bs.take 8, bs.drop 8, (List.take_append_drop 8 bs).symm,
          by rw [List.length_take]; omega⟩
      rw [packBits_chunk hc, List.length_cons]
      have hrl : rest.length < n := by
        simp only [List.length_append] at hlen
        omega
      rw [ih rest.length hrl rest le_rfl]
      simp only [List.length_append, hc]
      omega
    · push_neg at h8
      rcases Nat.eq_zero_or_pos bs.length with h0 | h0
      · have hnil : bs = [] := List.eq_nil_of_length_eq_zero h0
        subst hnil
        rfl
      · rw [packBits_short bs h0 h8]
        simp only [List.length_cons, List.length_nil]
        omega

theorem packBits_take : ∀ (j : Nat) (bits : List Bool), 8 * j ≤ bits.length →
    (packBits bits).take j = packBits (bits.take (8 * j)) := by
  intro j
  induction j with
  | zero => intro bits _; simp [packBits]
  | succ j ih =>
    intro bits hlen
    obtain ⟨c, rest, rfl, hc⟩ : ∃ c rest, bits = c ++ rest ∧ c.length = 8 :=
      ⟨bits.take 8, bits.drop 8, (List.take_append_drop 8 bits).symm,
        by rw [List.length_take]; omega⟩
    rw [packBits_chunk hc, List.take_succ_cons]
    have hrest : 8 * j ≤ rest.length := by
      simp only [List.length_append, hc] at hlen
      omega
    rw [ih rest hrest]
    have h1 : c.length ≤ 8 * (j + 1) := by rw [hc]; omega
    have h2 : 8 * (j + 1) - c.length = 8 * j := by rw [hc]; omega
    have htake : (c ++ rest).take (8 * (j + 1)) = c ++ rest.take (8 * j) := by
      rw [List.take_append_eq_append_take, List.take_of_length_le h1, h2]
    rw [htake, packBits_chunk hc]

theorem flatten_take_split (cf : Nat → List Bool) : ∀ (σ : List Nat) (m : Nat),
    m < ((σ.map cf).flatten).length →
    ∃ σ1 s σ2 c1 c2, σ = σ1 ++ s :: σ2 ∧ cf s = c1 ++ c2 ∧ c2 ≠ [] ∧
      ((σ.map cf).flatten).take m = ((σ1.map cf)).flatten ++ c1 := by
  intro σ
  induction σ with
  | nil => intro m hm; simp at hm
  | cons s σt ih =>
    intro m hm
    rw [List.map_cons, List.flatten_cons] at hm ⊢
    by_cases hms : m < (cf s).length
    · refine ⟨[], s, σt, (cf s).take m, (cf s).drop m, rfl, by simp, ?_, ?_⟩
      · intro hdrop
        have := congrArg List.length hdrop
        simp only [List.length_drop, List.length_nil] at this
        omega
      · rw [List.take_append_of_le_length (by omega)]
        simp
    · push_neg at hms
      rw [List.length_append] at hm
      obtain ⟨σ1, s2, σ2, c1, c2, hσ, hcf, hc2, htake⟩ :=
        ih (m - (cf s).length) (by omega)
      refine ⟨s :: σ1, s2, σ2, c1, c2, by rw [hσ, List.cons_append], hcf, hc2, ?_⟩
      rw [List.take_append_eq_append_take, List.take_of_length_le hms,
        List.map_cons, List.flatten_cons, htake, List.append_assoc]

theorem decodeBitsAux_take (rootO : HTree) (cf : Nat → List Bool) (σ : List Nat)
    (hgood : ∀ s ∈ σ, PathTo rootO (cf s) s ∧ cf s ≠ []) (m : Nat)
    (hm : m < ((σ.map cf).flatten).length) :
    ∃ σ1, decodeBitsAux rootO rootO (((σ.map cf).flatten).take m) [] σ.length =
      some σ1 ∧ σ1.length < σ.length := by
  obtain ⟨σ1, s, σ2, c1, c2, hσ, hcf, hc2, htake⟩ := flatten_take_split cf σ m hm
  refine ⟨σ1, ?_, by rw [hσ]; simp⟩
  rw [htake]
  have hgood1 : ∀ x ∈ σ1, PathTo rootO (cf x) x ∧ cf x ≠ [] := fun x hx =>
    hgood x (by rw [hσ]; exact List.mem_append_left _ hx)
  have hlen1 : σ1.length ≤ σ.length := by
    rw [hσ]
    simp only [List.length_append, List.length_cons]
    omega
  rw [decodeBitsAux_encode rootO cf σ1 hgood1 c1 [] σ.length hlen1,
    List.nil_append]
  have hsmem : s ∈ σ := by
    rw [hσ]
    exact List.mem_append_right σ1 (List.mem_cons_self s σ2)
  have hpath : PathTo rootO (c1 ++ c2) s := by
    rw [← hcf]
    exact (hgood s hsmem).1
  exact decodeBitsAux_prefixWalk hpath hc2 σ1 (σ.length - σ1.length)

theorem flatten_codes_pos {S : List Nat} (cf : Nat → List Bool)
    (hne : S ≠ []) (hcf : ∀ s ∈ S, cf s ≠ []) :
    0 < ((S.map cf).flatten).length := by
  cases S with
  | nil => exact absurd rfl hne
  | cons s t =>
    rw [List.map_cons, List.flatten_cons, List.length_append]
    have := hcf s (List.mem_cons_self _ _)
    have hpos : 0 < (cf s).length := List.length_pos.mpr this
    omega

/-! ## Malformed headers -/

theorem readHeaderLoop_short (junk : Junk) : ∀ (n : Nat) (acc : List (Nat × Nat))
    (data : List Nat) (a : Nat), data.length < 5 * n →
    ∃ a2, (readHeaderLoop junk n acc ⟨data, false, a⟩).2 = ⟨[], true, a2⟩ := by
  intro n
  induction n with
  | zero => intro acc data a h; omega
  | succ n ih =>
    intro acc data a h
    show ∃ a2, (readHeaderLoop junk (n + 1) acc ⟨data, false, a⟩).2 = _
    unfold readHeaderLoop
    cases data with
    | nil =>
      rw [readB_short 1 [] a (by simp)]
      dsimp only
      rw [readB_failed 4 [] (a + 1)]
      dsimp only
      exact ⟨_, readHeaderLoop_failed junk n _ (a + 1 + 1)⟩
    | cons v rest =>
      rw [show (v :: rest) = [v] ++ rest from rfl, readB_exact 1 [v] rest a rfl]
      dsimp only
      by_cases h4 : rest.length < 4
      · rw [readB_short 4 rest (a + 1) h4]
        dsimp only
        exact ⟨_, readHeaderLoop_failed junk n _ (a + 1 + 1)⟩
      · push_neg at h4
        obtain ⟨c4, rest2, rfl, hc4⟩ : ∃ c4 rest2, rest = c4 ++ rest2 ∧
            c4.length = 4 :=
          ⟨rest.take 4, rest.drop 4, (List.take_append_drop 4 rest).symm,
            by rw [List.length_take]; omega⟩
        rw [readB_exact 4 c4 rest2 (a + 1) hc4]
        dsimp only
        apply ih
        simp only [List.length_cons, List.length_append, hc4] at h
        omega

theorem decompress_malformed (junk : Junk) (c : Nat) (pbytes : List Nat)
    (hc : c < M64) (hlen : pbytes.length < 5 * c) :
    (decompress junk (natToLE 8 c ++ pbytes)).1 = some [] := by
  unfold decompress readHeader
  rw [readB_exact 8 (natToLE 8 c) pbytes 0 (natToLE_length 8 c)]
  dsimp only
  rw [leToNat_natToLE]
  rw [Nat.mod_eq_of_lt (by exact hc)]
  obtain ⟨a2, ha2⟩ := readHeaderLoop_short junk c [] pbytes 1 hlen
  rcases hkh : readHeaderLoop junk c [] ⟨pbytes, false, 1⟩ with ⟨fl, s1⟩
  rw [hkh] at ha2
  have hs1 : s1 = ⟨[], true, a2⟩ := ha2
  subst hs1
  unfold decodeData
  by_cases h0 : totalChars fl = 0
  · rw [if_pos h0]
  · rw [if_neg h0]
    rw [show (⟨[], true, a2⟩ : IStr).data = [] from rfl,
      show (⟨[], true, a2⟩ : IStr).fail = true from rfl, decodeDataLoop_failed]

theorem decompress_truncated (S : List Nat) (hb : ∀ b ∈ S, b < 256)
    (hc : ∀ b ∈ S, S.count b < M32) (hne : S ≠ []) (k : Nat)
    (hk1 : 8 + 5 * (buildFrequencyTable S).length ≤ k)
    (hk2 : k < (compress S).length) (junk : Junk) :
    ∃ out, (decompress junk ((compress S).take k)).1 = some out ∧
      out.length < S.length := by
  have hwf := wffreq_buildFrequencyTable hb
  have hflne := buildFrequencyTable_ne_nil hb hne
  have htot := totalChars_buildFrequencyTable hb hc
  have hgood : ∀ s ∈ S, PathTo (buildHuffmanTree (buildFrequencyTable S))
      (codeOf (generateCodes (buildHuffmanTree (buildFrequencyTable S)) []) s) s ∧
      codeOf (generateCodes (buildHuffmanTree (buildFrequencyTable S)) []) s ≠ [] :=
    fun s hs => codes_good hwf hflne s ((mem_keys_buildFrequencyTable hb s).mpr hs)
  have hbitspos : 0 <
      ((S.map (codeOf (generateCodes (buildHuffmanTree (buildFrequencyTable S)) []))).flatten).length :=
    flatten_codes_pos _ hne (fun s hs => (hgood s hs).2)
  have hcompr : compress S = writeHeader (buildFrequencyTable S) ++
      packBits ((S.map (codeOf (generateCodes (buildHuffmanTree (buildFrequencyTable S)) []))).flatten) := by
    rw [compress_eq hflne, writeCompressedData_eq]
  have hhl := writeHeader_length (buildFrequencyTable S)
  have hdl := packBits_length
    ((S.map (codeOf (generateCodes (buildHuffmanTree (buildFrequencyTable S)) []))).flatten)
  have hjlt : k - (writeHeader (buildFrequencyTable S)).length <
      (packBits ((S.map (codeOf (generateCodes (buildHuffmanTree (buildFrequencyTable S)) []))).flatten)).length := by
    rw [hcompr, List.length_append] at hk2
    omega
  have h8j : 8 * (k - (writeHeader (buildFrequencyTable S)).length) <
      ((S.map (codeOf (generateCodes (buildHuffmanTree (buildFrequencyTable S)) []))).flatten).length := by
    rw [hdl] at hjlt
    omega
  have htake : (compress S).take k = writeHeader (buildFrequencyTable S) ++
      (packBits ((S.map (codeOf (generateCodes (buildHuffmanTree (buildFrequencyTable S)) []))).flatten)).take
        (k - (writeHeader (buildFrequencyTable S)).length) := by
    rw [hcompr, List.take_append_eq_append_take,
      List.take_of_length_le (by omega)]
  rw [htake]
  unfold decompress
  rw [readHeader_writeHeader junk hwf _]
  dsimp only
  unfold decodeData
  rw [if_neg (by
    rw [htot]
    intro h0
    exact hne (List.eq_nil_of_length_eq_zero h0))]
  dsimp only
  rw [decodeDataLoop_flat, packBits_take _ _ (by omega), bytesToBits_packBits]
  have hmod : (8 - ((((S.map (codeOf (generateCodes (buildHuffmanTree (buildFrequencyTable S)) []))).flatten).take
      (8 * (k - (writeHeader (buildFrequencyTable S)).length))).length % 8)) % 8 = 0 := by
    rw [List.length_take]
    have hmin : min (8 * (k - (writeHeader (buildFrequencyTable S)).length))
        ((S.map (codeOf (generateCodes (buildHuffmanTree (buildFrequencyTable S)) []))).flatten).length =
        8 * (k - (writeHeader (buildFrequencyTable S)).length) := by omega
    rw [hmin, Nat.mul_mod_right]
  rw [hmod]
  simp only [List.replicate, List.append_nil]
  rw [htot]
  exact decodeBitsAux_take _ _ S hgood _ h8j

/-! ## Overflow of the 32-bit frequency counter -/

theorem decompress_header97_zero (rest : List Nat) :
    (decompress junk0 (writeHeader [(97, 0)] ++ rest)).1 = some [] := by
  unfold decompress
  have hwf97 : WFFreq [(97, 0)] := by decide
  rw [readHeader_writeHeader junk0 hwf97 rest]
  dsimp only
  unfold decodeData
  rw [if_pos (show totalChars [(97, 0)] = 0 from rfl)]

theorem decompress_compress_overflow :
    (decompress junk0 (compress (List.replicate (2 ^ 32) 97))).1 = some [] := by
  have hfl : buildFrequencyTable (List.replicate (2 ^ 32) 97) = [(97, 0)] := by
    rw [buildFrequencyTable_replicate 97 (2 ^ 32) (by positivity)]
    have hmod : (2 : Nat) ^ 32 % M32 = 0 := Nat.mod_self _
    rw [hmod]
  have hne2 : buildFrequencyTable (List.replicate (2 ^ 32) 97) ≠ [] := by
    rw [hfl]
    simp
  rw [compress_eq hne2, hfl]
  exact decompress_header97_zero _

theorem mem_generateCodes_ne_nil {d f : Nat} {a b : HTree} (ha : a ≠ HTree.null)
    {p : Nat × List Bool} (hp : p ∈ generateCodes (.mk d f a b) []) : p.2 ≠ [] := by
  simp only [generateCodes, List.mem_append] at hp
  rcases hp with (h | h) | h
  · cases a with
    | null => exact absurd rfl ha
    | mk a1 a2 a3 a4 => cases b <;> simp at h
  · obtain ⟨suf, hs⟩ := generateCodes_extends h
    rw [hs]
    simp
  · obtain ⟨suf, hs⟩ := generateCodes_extends h
    rw [hs]
    simp

/-! ## Claims -/

/-- C1 — counterexample to the claim as stated.  The claim quantifies over
every byte sequence, but the frequency counter is a 32-bit `unsigned`: for
an input of `2 ^ 32` copies of byte `97` the count wraps to `0`, the header
declares a total of `0` symbols, and decompression returns the empty
output instead of the original sequence. -/
theorem c1_roundtrip_counterexample :
    (decompress junk0 (compress (List.replicate (2 ^ 32) 97))).1 ≠
      some (List.replicate (2 ^ 32) 97) := by
  rw [decompress_compress_overflow]
  intro h
  have h2 : ([] : List Nat) = List.replicate (2 ^ 32) 97 := Option.some.inj h
  have h3 := congrArg List.length h2
  simp only [List.length_nil, List.length_replicate] at h3
  have : (0 : Nat) < 2 ^ 32 := by positivity
  omega

/-- C1 (amended): for every byte sequence in which each byte value occurs
fewer than `2 ^ 32` times (so that no 32-bit frequency counter wraps),
decompressing the output of compressing `S` yields exactly `S`, under
every junk oracle.  This covers the empty sequence, all-identical bytes
and the full 256-symbol alphabet. -/
theorem c1_roundtrip (S : List Nat) (hb : ∀ b ∈ S, b < 256)
    (hc : ∀ b ∈ S, S.count b < 2 ^ 32) (junk : Junk) :
    (decompress junk (compress S)).1 = some S :=
  roundtrip S hb hc junk

/-- C1 — witness instantiating the amended round trip on the concrete
input `aaabbc`. -/
theorem c1_roundtrip_witness :
    (∀ b ∈ [97, 97, 97, 98, 98, 99], b < 256) ∧
    (∀ b ∈ [97, 97, 97, 98, 98, 99], ([97, 97, 97, 98, 98, 99] : List Nat).count b < 2 ^ 32) ∧
    (decompress junk0 (compress [97, 97, 97, 98, 98, 99])).1 =
      some [97, 97, 97, 98, 98, 99] :=
  ⟨by decide, by decide,
    c1_roundtrip [97, 97, 97, 98, 98, 99] (by decide) (by decide) junk0⟩

/-- C2 — counterexample to the claim as stated.  Compressing `aa` yields a
14-byte file whose first 13 bytes are the header declaring 2 symbols;
truncating away the whole packed bitstream makes decompression return
normally with the empty output — silent truncation, not a
`CorruptStreamError` (no such error exists anywhere in the program). -/
theorem c2_corruption_counterexample :
    (compress [97, 97]).take 13 = writeHeader [(97, 2)] ∧
    totalChars [(97, 2)] = 2 ∧
    (decompress junk0 ((compress [97, 97]).take 13)).1 = some [] := by
  refine ⟨by decide, by decide, by decide⟩

/-- C2 (amended): truncating a valid compressed file anywhere strictly
inside its packed bitstream region does not raise any error: decompression
returns normally and silently emits only the symbols decoded before the
stream is exhausted, strictly fewer than the declared symbol count. -/
theorem c2_corruption (S : List Nat) (hb : ∀ b ∈ S, b < 256)
    (hc : ∀ b ∈ S, S.count b < 2 ^ 32) (hne : S ≠ []) (k : Nat)
    (hk1 : 8 + 5 * (buildFrequencyTable S).length ≤ k)
    (hk2 : k < (compress S).length) (junk : Junk) :
    ∃ out, (decompress junk ((compress S).take k)).1 = some out ∧
      out.length < S.length :=
  decompress_truncated S hb hc hne k hk1 hk2 junk

/-- C2 — witness instantiating the amended statement: the file for `aa`
truncated to its 13-byte header. -/
theorem c2_corruption_witness :
    ((∀ b ∈ [97, 97], b < 256) ∧
      (∀ b ∈ [97, 97], ([97, 97] : List Nat).count b < 2 ^ 32) ∧
      ([97, 97] : List Nat) ≠ [] ∧
      8 + 5 * (buildFrequencyTable [97, 97]).length ≤ 13 ∧
      13 < (compress [97, 97]).length) ∧
    ∃ out, (decompress junk0 ((compress [97, 97]).take 13)).1 = some out ∧
      out.length < ([97, 97] : List Nat).length :=
  ⟨⟨by decide, by decide, by decide, by decide, by decide⟩,
    c2_corruption [97, 97] (by decide) (by decide) (by decide) 13
      (by decide) (by decide) junk0⟩

/-- C3 — counterexample to the claim as stated.  A stream declaring 2
pairs but containing only 1 does not make `readHeader` fail: the failed
reads leave the loop variables indeterminate (junk oracle), a garbage
entry is inserted, and decompression then completes normally with empty
output.  No `MalformedHeaderError` exists anywhere in the program. -/
theorem c3_header_counterexample :
    (readHeader junk0 ⟨natToLE 8 2 ++ [97, 5, 0, 0, 0], false, 0⟩).1 =
      [(0, 0), (97, 5)] ∧
    (decompress junk0 (natToLE 8 2 ++ [97, 5, 0, 0, 0])).1 = some [] := by
  refine ⟨by decide, by decide⟩

/-- C3 (amended): when the declared pair count exceeds the pairs present,
`readHeader` does not fail; the remaining iterations read nothing and
insert indeterminate values, the stream is left exhausted with its fail
bit set, and decompression returns normally with empty output — for
every junk oracle. -/
theorem c3_header (junk : Junk) (c : Nat) (pbytes : List Nat)
    (hc : c < 2 ^ 64) (hlen : pbytes.length < 5 * c) :
    (decompress junk (natToLE 8 c ++ pbytes)).1 = some [] :=
  decompress_malformed junk c pbytes hc hlen

/-- C3 — witness instantiating the amended statement at a header that
declares 2 pairs but carries only 1. -/
theorem c3_header_witness :
    ((2 : Nat) < 2 ^ 64 ∧ ([97, 5, 0, 0, 0] : List Nat).length < 5 * 2) ∧
    (decompress junk0 (natToLE 8 2 ++ [97, 5, 0, 0, 0])).1 = some [] :=
  ⟨⟨by decide, by decide⟩,
    c3_header junk0 2 [97, 5, 0, 0, 0] (by decide) (by decide)⟩

/-- C4 — counterexample to the claim as stated.  Decompressing an empty
file does attempt a header read: `decompress` calls `readHeader`
unconditionally, whose 8-byte size read is the one (failing) attempted
read operation recorded on the stream. -/
theorem c4_empty_counterexample :
    (decompress junk0 []).2.attempts = 1 ∧ (decompress junk0 []).1 = some [] := by
  refine ⟨by decide, by decide⟩

/-- C4 (amended): compressing an empty input produces an empty output and
is not an error, and decompressing an empty file produces an empty output
under every junk oracle — but a header read IS attempted (it fails
harmlessly, see the counterexample). -/
theorem c4_empty :
    compress [] = [] ∧ ∀ junk : Junk, (decompress junk []).1 = some [] :=
  ⟨rfl, decompress_nil_out⟩

/-- C5: for every non-empty well-formed frequency table the generated code
table binds exactly the symbols of the table, each exactly once, to a
non-empty bit string, and is prefix-free: no code is a prefix of another. -/
theorem c5_prefix_free (fl : List (Nat × Nat)) (hwf : WFFreq fl)
    (hne : fl ≠ []) :
    ((generateCodes (buildHuffmanTree fl) []).map Prod.fst).Perm
      (fl.map Prod.fst) ∧
    ((generateCodes (buildHuffmanTree fl) []).map Prod.fst).Nodup ∧
    (∀ p ∈ generateCodes (buildHuffmanTree fl) [], p.2 ≠ []) ∧
    (generateCodes (buildHuffmanTree fl) []).Pairwise
      (fun p q => ¬ isPre p.2 q.2 ∧ ¬ isPre q.2 p.2) := by
  obtain ⟨d, f, a, b, heq, ha, hperm⟩ := buildHuffmanTree_spec hne
  have hkeys : (generateCodes (buildHuffmanTree fl) []).map Prod.fst =
      leafData (HTree.mk d f a b) := by
    rw [heq, generateCodes_keys]
  refine ⟨?_, ?_, ?_, pairwise_generateCodes _ _⟩
  · rw [hkeys]
    exact hperm
  · rw [hkeys]
    exact (keys_nodup_of_wffreq hwf).perm hperm.symm
  · intro p hp
    rw [heq] at hp
    exact mem_generateCodes_ne_nil ha hp

/-- C5 — witness instantiating the code-table properties on the table
mapping byte 97 to count 1 and byte 98 to count 2. -/
theorem c5_prefix_free_witness :
    (WFFreq [(97, 1), (98, 2)] ∧ ([(97, 1), (98, 2)] : List (Nat × Nat)) ≠ []) ∧
    ((generateCodes (buildHuffmanTree [(97, 1), (98, 2)]) []).map Prod.fst).Perm
      (([(97, 1), (98, 2)] : List (Nat × Nat)).map Prod.fst) ∧
    ((generateCodes (buildHuffmanTree [(97, 1), (98, 2)]) []).map Prod.fst).Nodup ∧
    (∀ p ∈ generateCodes (buildHuffmanTree [(97, 1), (98, 2)]) [], p.2 ≠ []) ∧
    (generateCodes (buildHuffmanTree [(97, 1), (98, 2)]) []).Pairwise
      (fun p q => ¬ isPre p.2 q.2 ∧ ¬ isPre q.2 p.2) :=
  ⟨⟨by decide, by decide⟩,
    c5_prefix_free [(97, 1), (98, 2)] (by decide) (by decide)⟩

/-- C6: a frequency table with exactly one distinct symbol produces a tree
whose root is a synthetic internal node with placeholder byte 36, the
same frequency, the symbol leaf as left child and a null right child, and
the symbol is assigned the non-empty code 0 (a single left step). -/
theorem c6_single_symbol (b f : Nat) :
    buildHuffmanTree [(b, f)] =
      HTree.mk 36 f (HTree.mk b f HTree.null HTree.null) HTree.null ∧
    codeOf (generateCodes (buildHuffmanTree [(b, f)]) []) b = [false] := by
  refine ⟨rfl, ?_⟩
  simp [codeOf, generateCodes]

/-- C7: reading back a written header reconstructs exactly the original
frequency table, for every non-empty well-formed table and every junk
oracle (no read fails on this path, so the oracle is irrelevant). -/
theorem c7_header_roundtrip (fl : List (Nat × Nat)) (hwf : WFFreq fl)
    (hne : fl ≠ []) (junk : Junk) :
    (readHeader junk ⟨writeHeader fl, false, 0⟩).1 = fl := by
  have h := readHeader_writeHeader junk hwf []
  rw [List.append_nil] at h
  rw [h]

/-- C7 — witness: the header of the one-entry table binding byte 97 to
count 3 round-trips. -/
theorem c7_header_roundtrip_witness :
    (WFFreq [(97, 3)] ∧ ([(97, 3)] : List (Nat × Nat)) ≠ []) ∧
    (readHeader junk0 ⟨writeHeader [(97, 3)], false, 0⟩).1 = [(97, 3)] :=
  ⟨⟨by decide, by decide⟩, c7_header_roundtrip [(97, 3)] (by decide) (by decide) junk0⟩

/-- C8 — counterexample to the claim as stated.  For the input holding the
bytes 0 and 255, the claim demands the pair of symbol 0 first (ascending
over the byte domain 0–255); the program iterates a `std::map<char, _>`
with signed 8-bit keys, so the pair of symbol 255 (signed value -1) is
serialised first. -/
theorem c8_order_counterexample :
    writeHeader (buildFrequencyTable [0, 255]) ≠
      natToLE 8 2 ++ 0 :: natToLE 4 1 ++ 255 :: natToLE 4 1 ∧
    writeHeader (buildFrequencyTable [0, 255]) =
      natToLE 8 2 ++ 255 :: natToLE 4 1 ++ 0 :: natToLE 4 1 := by
  refine ⟨by decide, by decide⟩

/-- C8 (amended): `writeHeader` serialises the symbol count followed by the
(symbol, frequency) pairs in ascending order of the signed 8-bit value of
the symbol (bytes 128–255 precede bytes 0–127), the iteration order of
`std::map<char, unsigned>` on the reference platform. -/
theorem c8_order (S : List Nat) (hb : ∀ b ∈ S, b < 256) :
    (buildFrequencyTable S).Pairwise (fun p q => sKey p.1 < sKey q.1) ∧
    writeHeader (buildFrequencyTable S) =
      natToLE 8 (buildFrequencyTable S).length ++
        ((buildFrequencyTable S).map (fun p => p.1 :: natToLE 4 p.2)).flatten :=
  ⟨(wffreq_buildFrequencyTable hb).1, rfl⟩

/-- C8 — witness at the two-symbol input holding bytes 0 and 255. -/
theorem c8_order_witness :
    (∀ b ∈ [0, 255], b < 256) ∧
    (buildFrequencyTable [0, 255]).Pairwise (fun p q => sKey p.1 < sKey q.1) ∧
    writeHeader (buildFrequencyTable [0, 255]) =
      natToLE 8 (buildFrequencyTable [0, 255]).length ++
        ((buildFrequencyTable [0, 255]).map (fun p => p.1 :: natToLE 4 p.2)).flatten :=
  ⟨by decide, c8_order [0, 255] (by decide)⟩

/-- C9: when the packed bitstream is a concatenation of valid codewords of
the rebuilt tree for exactly the declared symbol count, `decodeData`
decodes it completely: the cursor only ever moves to existing children and
the null-pointer dereference (modelled as the `none` result) is
unreachable — the result is `some σ`, never `none`. -/
theorem c9_no_null_deref (fl : List (Nat × Nat)) (hwf : WFFreq fl)
    (hne : fl ≠ []) (σ : List Nat) (hσ : ∀ s ∈ σ, s ∈ fl.map Prod.fst)
    (hcount : totalChars fl = σ.length) :
    (decodeData (buildHuffmanTree fl) fl
      ⟨writeCompressedData (generateCodes (buildHuffmanTree fl) []) σ, false, 0⟩).1 =
      some σ := by
  unfold decodeData
  by_cases h0 : totalChars fl = 0
  · rw [if_pos h0]
    rw [h0] at hcount
    have hσnil : σ = [] := List.eq_nil_of_length_eq_zero hcount.symm
    rw [hσnil]
  · rw [if_neg h0]
    dsimp only
    rw [decodeDataLoop_flat, writeCompressedData_eq, bytesToBits_packBits, hcount]
    have hgood : ∀ s ∈ σ, PathTo (buildHuffmanTree fl)
        (codeOf (generateCodes (buildHuffmanTree fl) []) s) s ∧
        codeOf (generateCodes (buildHuffmanTree fl) []) s ≠ [] :=
      fun s hs => codes_good hwf hne s (hσ s hs)
    rw [decodeBitsAux_encode _ _ σ hgood _ [] σ.length le_rfl, Nat.sub_self,
      decodeBitsAux_zero]
    simp

/-- C9 — witness: codewords for the symbols 97 and 98 of a two-symbol tree
decode back without any null dereference. -/
theorem c9_no_null_deref_witness :
    (WFFreq [(97, 1), (98, 1)] ∧ ([(97, 1), (98, 1)] : List (Nat × Nat)) ≠ [] ∧
      (∀ s ∈ [97, 98], s ∈ ([(97, 1), (98, 1)] : List (Nat × Nat)).map Prod.fst) ∧
      totalChars [(97, 1), (98, 1)] = ([97, 98] : List Nat).length) ∧
    (decodeData (buildHuffmanTree [(97, 1), (98, 1)]) [(97, 1), (98, 1)]
      ⟨writeCompressedData (generateCodes (buildHuffmanTree [(97, 1), (98, 1)]) [])
        [97, 98], false, 0⟩).1 = some [97, 98] :=
  ⟨⟨by decide, by decide, by decide, by decide⟩,
    c9_no_null_deref [(97, 1), (98, 1)] (by decide) (by decide) [97, 98]
      (by decide) (by decide)⟩

/-- C10: for every input containing the byte 36 (the character used as the
placeholder payload of internal nodes), the code table has exactly one
entry for symbol 36 — the one of its leaf — and its key set is exactly the
key set of the frequency table: no entry derives from an internal node. -/
theorem c10_placeholder (S : List Nat) (hb : ∀ b ∈ S, b < 256)
    (h36 : 36 ∈ S) :
    ((generateCodes (buildHuffmanTree (buildFrequencyTable S)) []).map
      Prod.fst).count 36 = 1 ∧
    ((generateCodes (buildHuffmanTree (buildFrequencyTable S)) []).map
      Prod.fst).Perm ((buildFrequencyTable S).map Prod.fst) := by
  have hwf := wffreq_buildFrequencyTable hb
  have hflne := buildFrequencyTable_ne_nil hb (List.ne_nil_of_mem h36)
  obtain ⟨d, f, a, b, heq, ha, hperm⟩ := buildHuffmanTree_spec hflne
  have hkeys : (generateCodes (buildHuffmanTree (buildFrequencyTable S)) []).map
      Prod.fst = leafData (HTree.mk d f a b) := by
    rw [heq, generateCodes_keys]
  have hperm2 : ((generateCodes (buildHuffmanTree (buildFrequencyTable S)) []).map
      Prod.fst).Perm ((buildFrequencyTable S).map Prod.fst) := by
    rw [hkeys]
    exact hperm
  refine ⟨?_, hperm2⟩
  rw [hperm2.count_eq 36]
  exact List.count_eq_one_of_mem (keys_nodup_of_wffreq hwf)
    ((mem_keys_buildFrequencyTable hb 36).mpr h36)

/-- C10 — witness: an input containing the placeholder byte 36 itself. -/
theorem c10_placeholder_witness :
    ((∀ b ∈ [36, 97], b < 256) ∧ 36 ∈ ([36, 97] : List Nat)) ∧
    ((generateCodes (buildHuffmanTree (buildFrequencyTable [36, 97])) []).map
      Prod.fst).count 36 = 1 ∧
    ((generateCodes (buildHuffmanTree (buildFrequencyTable [36, 97])) []).map
      Prod.fst).Perm ((buildFrequencyTable [36, 97]).map Prod.fst) :=
  ⟨⟨by decide, by decide⟩, c10_placeholder [36, 97] (by decide) (by decide)⟩

end Huffman
